import Mathlib

/-!
Verification of `conv1d_text_vae/conv1d_text_vae.py` (class `Conv1dTextVAE` and its
helpers) against its natural-language specification.

Python floats are modelled as exact rationals (`ℚ`) where only order comparisons
matter, and as real numbers (`ℝ`) where square roots (L2 norms, cosine distances)
occur.  External collaborators (the gensim embedding lookup, the Annoy index,
scikit-learn's DBSCAN, the Keras networks) are modelled as function parameters,
so every theorem quantifies over their behaviour.
-/

namespace ConvVae

/-! ## TextRanker: `Conv1dTextVAE.find_best_texts` (source lines 644-662)

Each word position carries a ranked candidate list of `(word, distance)` pairs.
The Python code builds the greedy sentence, collects all non-best
`((word_idx, variant_idx), distance)` entries, sorts them by
`(distance, word_idx, variant_idx)` and then *mutates* the running variant in
place, appending the joined string after each single substitution. -/

/-- Sort key order used by `variants_and_distances.sort(key=lambda it: (it[1], it[0][0], it[0][1]))`:
lexicographic on (distance, word position, variant rank). -/
def subLe (a b : (Nat × Nat) × ℚ) : Prop :=
  a.2 < b.2 ∨ (a.2 = b.2 ∧ (a.1.1 < b.1.1 ∨ (a.1.1 = b.1.1 ∧ a.1.2 ≤ b.1.2)))

instance : DecidableRel subLe := fun a b =>
  inferInstanceAs (Decidable (a.2 < b.2 ∨ (a.2 = b.2 ∧ (a.1.1 < b.1.1 ∨ (a.1.1 = b.1.1 ∧ a.1.2 ≤ b.1.2)))))

instance : IsTotal ((Nat × Nat) × ℚ) subLe :=
  ⟨by
    intro a b
    unfold subLe
    rcases lt_trichotomy a.2 b.2 with h | h | h
    · exact Or.inl (Or.inl h)
    · rcases lt_trichotomy a.1.1 b.1.1 with h2 | h2 | h2
      · exact Or.inl (Or.inr ⟨h, Or.inl h2⟩)
      · rcases le_total a.1.2 b.1.2 with h3 | h3
        · exact Or.inl (Or.inr ⟨h, Or.inr ⟨h2, h3⟩⟩)
        · exact Or.inr (Or.inr ⟨h.symm, Or.inr ⟨h2.symm, h3⟩⟩)
      · exact Or.inr (Or.inr ⟨h.symm, Or.inl h2⟩)
    · exact Or.inr (Or.inl h)⟩

instance : IsTrans ((Nat × Nat) × ℚ) subLe :=
  ⟨by
    intro a b c hab hbc
    unfold subLe at *
    rcases hab with h1 | ⟨e1, h1⟩
    · rcases hbc with h2 | ⟨e2, _⟩
      · exact Or.inl (h1.trans h2)
      · exact Or.inl (e2 ▸ h1)
    · rcases hbc with h2 | ⟨e2, h2⟩
      · exact Or.inl (e1 ▸ h2)
      · refine Or.inr ⟨e1.trans e2, ?_⟩
        rcases h1 with h1 | ⟨f1, h1⟩
        · rcases h2 with h2 | ⟨f2, _⟩
          · exact Or.inl (h1.trans h2)
          · exact Or.inl (f2 ▸ h1)
        · rcases h2 with h2 | ⟨f2, h2⟩
          · exact Or.inl (f1 ▸ h2)
          · exact Or.inr ⟨f1.trans f2, h1.trans h2⟩⟩

/-- `' '.join(new_variant)`. -/
def joinWords (ws : List String) : String := String.intercalate " " ws

/-- The greedy first-choice word at every position
(`new_variant.append(variants_of_word[0][0])`). -/
def greedyWords (variants : List (List (String × ℚ))) : List String :=
  variants.map fun l => (l.headD ("", 0)).1

/-- All non-best `((word_idx, variant_idx), distance)` entries, in source order
(outer loop over positions, inner loop over ranks `1..`). -/
def subsOf (variants : List (List (String × ℚ))) : List ((Nat × Nat) × ℚ) :=
  ((List.range variants.length).map fun w =>
    (List.range ((variants.getD w []).length - 1)).map fun j =>
      ((w, j + 1), ((variants.getD w []).getD (j + 1) ("", 0)).2)).flatten

/-- The substitution list after `variants_and_distances.sort(...)`. -/
def sortedSubs (variants : List (List (String × ℚ))) : List ((Nat × Nat) × ℚ) :=
  List.insertionSort subLe (subsOf variants)

/-- The in-place update `new_variant[word_idx] = variants_of_word[best_variant_idx][0]`. -/
def wordStep (variants : List (List (String × ℚ)))
    (cur : List String) (item : (Nat × Nat) × ℚ) : List String :=
  cur.set item.1.1 ((variants.getD item.1.1 []).getD item.1.2 ("", 0)).1

/-- One iteration of the substitution loop: mutate the running variant in place,
then append the joined string (`used_variants.append(' '.join(new_variant))`). -/
def substStep (variants : List (List (String × ℚ)))
    (st : List String × List String) (item : (Nat × Nat) × ℚ) : List String × List String :=
  (st.1 ++ [joinWords (wordStep variants st.2 item)], wordStep variants st.2 item)

/-- `Conv1dTextVAE.find_best_texts`: greedy sentence first, then up to `ntop - 1`
single substitutions applied cumulatively to the running variant. -/
def find_best_texts (variants : List (List (String × ℚ))) (ntop : Nat) : List String :=
  let g := greedyWords variants
  (((sortedSubs variants).take (ntop - 1)).foldl (substStep variants) ([joinWords g], g)).1

/-- The running word list after the first `i` substitutions have been applied. -/
def variantWords (variants : List (List (String × ℚ))) (i : Nat) : List String :=
  ((sortedSubs variants).take i).foldl (wordStep variants) (greedyWords variants)

/-- Number of corresponding positions at which two word sequences differ. -/
def wordDiffs (s t : List String) : Nat :=
  (List.zipWith (fun a b => if a = b then 0 else 1) s t).sum

/-! ## Real-vector primitives shared by WordResolver, postprocessing and quantization

`numpy` / `scipy` float vectors are modelled as `List ℝ`. -/

/-- Dot product of two vectors (`np.dot` restricted to the common prefix,
as `np.linalg`/`scipy` use it on equal-length vectors). -/
def dot (u v : List ℝ) : ℝ := (List.zipWith (· * ·) u v).sum

/-- `np.linalg.norm`: the Euclidean norm. -/
noncomputable def l2norm (v : List ℝ) : ℝ := Real.sqrt ((v.map fun a => a * a).sum)

/-- `scipy.spatial.distance.cosine(u, v) = 1 - u·v / (‖u‖‖v‖)`. -/
noncomputable def cosineDist (u v : List ℝ) : ℝ := 1 - dot u v / (l2norm u * l2norm v)

/-- The `if norm_value > 0.0: v /= norm_value` normalization pattern. -/
noncomputable def normalizeIfPos (v : List ℝ) : List ℝ :=
  if 0 < l2norm v then v.map (· / l2norm v) else v

/-- `np.zeros(size)` followed by `vec[idx] = 1.0`. -/
def onehot (size idx : Nat) : List ℝ := (List.replicate size (0 : ℝ)).set idx 1

/-- `np.zeros(size)` followed by `vec[0:v.length] = v` (used for `best_vector` and
`vectors_of_similar_words` rows, whose first `vector_size` entries come from the
embedding model). -/
def padVec (size : Nat) (v : List ℝ) : List ℝ := v.take size ++ List.replicate (size - v.length) 0

/-- `np.argmin`: index of the first occurrence of the minimum (auxiliary scan). -/
noncomputable def argminAux : List ℝ → Nat → Nat → ℝ → Nat
  | [], _, best, _ => best
  | x :: rest, i, best, bv =>
      if x < bv then argminAux rest (i + 1) i x else argminAux rest (i + 1) best bv

/-- `np.argmin` over a nonempty list (0 on the empty list, which numpy rejects). -/
noncomputable def argminIdx : List ℝ → Nat
  | [] => 0
  | x :: rest => argminAux rest 1 0 x

/-- `np.argmax`: index of the first occurrence of the maximum (auxiliary scan). -/
noncomputable def argmaxAux : List ℝ → Nat → Nat → ℝ → Nat
  | [], _, best, _ => best
  | x :: rest, i, best, bv =>
      if bv < x then argmaxAux rest (i + 1) i x else argmaxAux rest (i + 1) best bv

/-- `np.argmax` over a nonempty list (0 on the empty list, which numpy rejects). -/
noncomputable def argmaxIdx : List ℝ → Nat
  | [] => 0
  | x :: rest => argmaxAux rest 1 0 x

/-! ## WordResolver: `Conv1dTextVAE.find_best_words` (source lines 580-642)

The gensim call `embeddings_model.similar_by_vector(..., topn=n)` is an external
collaborator; its result — a similarity-ranked list of `(word, score)` pairs —
enters as the parameter `res₀`, and the lookup `embeddings_model[word]` as the
parameter `emb`.  `vs` is `embeddings_model.vector_size`.  The nested comparison
cascade below transcribes the source's `if` tree; whenever the source leaves
`res` unassigned, the embedding returns `res₀` unchanged. -/

/-- Python tuple order used by `res.sort(key=lambda it: (it[1], it[0]))`:
ascending cosine distance, ties broken by the word string. -/
def pairLe (a b : String × ℝ) : Prop := a.2 < b.2 ∨ (a.2 = b.2 ∧ a.1 ≤ b.1)

noncomputable instance : DecidableRel pairLe := Classical.decRel _

instance : IsTotal (String × ℝ) pairLe :=
  ⟨by
    intro a b
    unfold pairLe
    rcases lt_trichotomy a.2 b.2 with h | h | h
    · exact Or.inl (Or.inl h)
    · rcases le_total a.1 b.1 with h2 | h2
      · exact Or.inl (Or.inr ⟨h, h2⟩)
      · exact Or.inr (Or.inr ⟨h.symm, h2⟩)
    · exact Or.inr (Or.inl h)⟩

instance : IsTrans (String × ℝ) pairLe :=
  ⟨by
    intro a b c hab hbc
    unfold pairLe at *
    rcases hab with h1 | ⟨e1, h1⟩
    · rcases hbc with h2 | ⟨e2, _⟩
      · exact Or.inl (h1.trans h2)
      · exact Or.inl (e2 ▸ h1)
    · rcases hbc with h2 | ⟨e2, h2⟩
      · exact Or.inl (e1 ▸ h2)
      · exact Or.inr ⟨e1.trans e2, h1.trans h2⟩⟩

/-- `Conv1dTextVAE.find_best_words`.  `none` models Python's `None` ("end of
sequence wins"). -/
noncomputable def find_best_words (wv : List ℝ) (emb : String → List ℝ) (vs : Nat)
    (specials : List String) (res₀ : List (String × ℝ)) : Option (List (String × ℝ)) :=
  let vector_size := vs + 2 + specials.length
  let best_vector := normalizeIfPos (padVec vector_size (emb (res₀.headD ("", 0)).1))
  let dspec := fun i => cosineDist wv (onehot vector_size (vs + i))
  let si := argminIdx ((List.range specials.length).map dspec)
  let d_end := cosineDist wv (onehot vector_size (vector_size - 1))
  let d_unk := cosineDist wv (onehot vector_size (vector_size - 2))
  let d_best := cosineDist wv best_vector
  if d_end < d_unk then
    if d_end < d_best then
      if 0 < specials.length then
        if d_end < dspec si then none
        else some [(specials.getD si "", dspec si)]
      else none
    else some res₀
  else
    if d_unk < d_best then
      if 0 < specials.length then
        if d_unk < dspec si then some []
        else some [(specials.getD si "", dspec si)]
      else some []
    else
      if 0 < specials.length then
        if dspec si < d_best then some [(specials.getD si "", dspec si)]
        else some res₀
      else
        some (List.insertionSort pairLe (res₀.map fun p =>
          (p.1, cosineDist wv (normalizeIfPos (padVec vector_size (emb p.1))))))

/-! ## Reconstructed-vector postprocessing:
`Conv1dTextVAE.postprocess_reconstructed_word_vectors` (source lines 542-565) -/

/-- The end-detection loop: scan the time steps in order; on the first row whose
arg-max is the last column, return `max time_idx 1` (the `break`); otherwise
fall through to the fill value `T`. -/
noncomputable def endScan (W T : Nat) : List (List ℝ) → Nat → Nat
  | [], _ => T
  | r :: rest, t => if argmaxIdx r = W - 1 then max t 1 else endScan W T rest (t + 1)

/-- `end_idx[sample_idx]` for one sample. -/
noncomputable def endIdxOf (W T : Nat) (sample : List (List ℝ)) : Nat := endScan W T sample 0

/-- The second loop of the source for one sample: rows before `end_idx` are the
input rows without their last column, divided by their Euclidean norm; rows from
`end_idx` on keep the `np.zeros` initialisation. -/
noncomputable def postprocessSample (T W : Nat) (sample : List (List ℝ)) : List (List ℝ) :=
  (List.range T).map fun t =>
    if t < endIdxOf W T sample then
      (fun r => r.map (· / l2norm r)) ((sample.getD t []).take (W - 1))
    else List.replicate (W - 1) 0

/-- The 3-D body of `postprocess_reconstructed_word_vectors`; `T` and `W` play
the roles of `word_vectors.shape[1]` and `word_vectors.shape[2]`. -/
noncomputable def postprocess3 (x : List (List (List ℝ))) : List (List (List ℝ)) :=
  x.map (postprocessSample ((x.headD []).length) (((x.headD []).headD []).length))

/-- A numpy array of arbitrary dimension: its shape plus row-major flat data. -/
structure NDArray where
  shape : List Nat
  data : List ℝ

/-- Reshape flat row-major data into a `(B, T, W)` cube of nested lists. -/
def toCube (B T W : Nat) (data : List ℝ) : List (List (List ℝ)) :=
  (List.range B).map fun i =>
    (List.range T).map fun t =>
      (List.range W).map fun j => data.getD ((i * T + t) * W + j) 0

/-- `Conv1dTextVAE.postprocess_reconstructed_word_vectors` including the
dimension check: a non-3-D input raises `ValueError`. -/
noncomputable def postprocess_reconstructed_word_vectors (a : NDArray) :
    Except String (List (List (List ℝ))) :=
  match a.shape with
  | [b, t, w] => .ok (postprocess3 (toCube b t w a.data))
  | _ => .error ("The `word_vectors` parameter is wrong! Expected 3-D array, got " ++
      toString a.shape.length ++ "-D array!")

/-! ## VocabularyQuantizer: `Conv1dTextVAE.quantize_word_vectors` (source lines 915-1007)

The Annoy index and scikit-learn's DBSCAN are external collaborators.  Annoy's
`get_nns_by_item(i, k, include_distances=True)` enters as the parameter `nns`
(item index and neighbour count to neighbour list and distance list); DBSCAN's
`fit_predict` enters as `dbscanFn`, receiving the `eps` and `min_samples` the
source computes and returning one integer label per sample (`-1` = noise). -/

/-- `n_max_neighbours = min(3 * max(1, N // max_vocabulary_size), N - 1)`. -/
def kOf (N B : Nat) : Nat := min (3 * max 1 (N / B)) (N - 1)

/-- `min_samples = max(1, N // (max_vocabulary_size * 4))`. -/
def msOf (N B : Nat) : Nat := max 1 (N / (B * 4))

/-- `len(set(predicted) - {-1})`: the number of distinct non-noise labels. -/
def nClustersOf (labels : List ℤ) : Nat := ((labels.filter fun l => 0 ≤ l).dedup).length

/-- The number of noise-labelled samples. -/
def noiseCount (labels : List ℤ) : Nat := (labels.filter fun l => l < 0).length

/-- Running state of the source's accumulation loop over samples. -/
structure QState where
  centers : List (List ℝ)
  freqs : List Nat
  nNoise : Nat
  clusters : List Nat

/-- Componentwise vector addition (`cluster_centers[cluster_idx] += word_vectors[sample_idx]`). -/
def vecAdd (u v : List ℝ) : List ℝ := List.zipWith (· + ·) u v

/-- One iteration of the accumulation loop: a noise label is turned into the
fresh singleton cluster id `n_clusters + n_noise_samples`. -/
def quantStep (ncl : Nat) (st : QState) (p : ℤ × List ℝ) : QState :=
  let c := if 0 ≤ p.1 then p.1.toNat else ncl + st.nNoise
  { centers := st.centers.set c (vecAdd (st.centers.getD c []) p.2)
    freqs := st.freqs.set c (st.freqs.getD c 0 + 1)
    nNoise := if 0 ≤ p.1 then st.nNoise else st.nNoise + 1
    clusters := st.clusters ++ [c] }

/-- `all_data`: the flat list of every distance retrieved from the Annoy index —
`n_max_neighbours` distances for each of the `N` samples, in sample order. -/
def allDistances (N B : Nat) (nns : Nat → Nat → List Nat × List ℝ) : List ℝ :=
  ((List.range N).map fun i => (nns i (kOf N B)).2.take (kOf N B)).flatten

/-- `eps = np.mean(all_data)`. -/
noncomputable def quantEps (N B : Nat) (nns : Nat → Nat → List Nat × List ℝ) : ℝ :=
  (allDistances N B nns).sum / ((allDistances N B nns).length : ℝ)

/-- `predicted = DBSCAN(min_samples=..., metric='precomputed', eps=...).fit_predict(...)`:
the external clustering call, applied to the `eps` and `min_samples` the source
computes. -/
noncomputable def quantLabels (N B : Nat) (nns : Nat → Nat → List Nat × List ℝ)
    (dbscanFn : ℝ → Nat → List ℤ) : List ℤ :=
  dbscanFn (quantEps N B nns) (msOf N B)

/-- `Conv1dTextVAE.quantize_word_vectors`: returns the per-word cluster ids and
the unit-normalized cluster centroids. -/
noncomputable def quantize_word_vectors (wv : List (List ℝ)) (B : Nat)
    (nns : Nat → Nat → List Nat × List ℝ) (dbscanFn : ℝ → Nat → List ℤ) :
    List Nat × List (List ℝ) :=
  let N := wv.length
  let W := (wv.headD []).length
  let labels := quantLabels N B nns dbscanFn
  let ncl := nClustersOf labels
  let ntot := ncl + noiseCount labels
  let st := (labels.zip wv).foldl (quantStep ncl)
    ⟨List.replicate ntot (List.replicate W 0), List.replicate ntot 0, 0, []⟩
  let centers := (List.range ntot).map fun c =>
    let m := (st.centers.getD c []).map (· / ((st.freqs.getD c 0 : Nat) : ℝ))
    m.map (· / l2norm m)
  (st.clusters, centers)

/-- Closed form of the cluster-id sequence produced by the accumulation loop,
threading the running noise counter. -/
def clusterIds (ncl : Nat) : Nat → List ℤ → List Nat
  | _, [] => []
  | nn, l :: rest =>
      (if 0 ≤ l then l.toNat else ncl + nn) :: clusterIds ncl (if 0 ≤ l then nn else nn + 1) rest

/-- Left-to-right sum of the vectors whose cluster id is `c`. -/
def memberSum (W : Nat) (pairs : List (Nat × List ℝ)) (c : Nat) : List ℝ :=
  pairs.foldl (fun acc p => if p.1 = c then vecAdd acc p.2 else acc) (List.replicate W 0)

/-! ## CharacterGenerator inference loop (source lines 448-468) and the length
bound fixed by `fit` (source lines 252-260)

The Keras decoder is external; for a single text the greedy arg-max character at
step `t` enters as `next t`.  The loop appends the sampled character, then stops
when it equals the EOS marker or when the number of emitted characters exceeds
the bound. -/

/-- The per-text decode loop; `t` counts characters already emitted.  The fuel
`bound + 1 - t` never runs out before the source's own stop condition fires. -/
def charLoopAux (next : Nat → String) (eos : String) (bound : Nat) : Nat → Nat → List String
  | 0, _ => []
  | fuel + 1, t =>
      let c := next t
      if c = eos ∨ bound < t + 1 then [c]
      else c :: charLoopAux next eos bound fuel (t + 1)

/-- The decoded character sequence for one text. -/
def charLoop (next : Nat → String) (eos : String) (bound : Nat) : List String :=
  charLoopAux next eos bound (bound + 1) 0

/-- `''.join(decoded_sentences[text_idx])`. -/
def generatedText (next : Nat → String) (eos : String) (bound : Nat) : String :=
  String.join (charLoop next eos bound)

/-- `output_text_size_in_characters_` as computed by `fit`: the maximum length
of the character-tokenized target texts, plus 3. -/
def output_text_size_in_characters (targets : List (List String)) : Nat :=
  (targets.foldl (fun m cur => max m cur.length) 0) + 3

/-! ## `fit` validation-split check (source lines 201-205) -/

/-- Python's builtin `round` on an exact rational: round half to even. -/
def pyRound (q : ℚ) : ℤ :=
  if q - ⌊q⌋ < 1 / 2 then ⌊q⌋
  else if (1 : ℚ) / 2 < q - ⌊q⌋ then ⌊q⌋ + 1
  else if Even ⌊q⌋ then ⌊q⌋ else ⌊q⌋ + 1

/-- The start of `Conv1dTextVAE.fit` after the type checks: compute
`n_eval_set = int(round(len(X) * validation_fraction))`, raise on a degenerate
split, and only then run the training body `train` (which performs every
assignment of a fitted attribute).  `σ` is the estimator state. -/
def fitModel {σ : Type} (nX : Nat) (f : ℚ) (st : σ) (train : σ → σ) : Except String σ :=
  let n_eval := pyRound (nX * f)
  if n_eval < 1 then
    .error "`validation_fraction` is too small! There are no samples for evaluation!"
  else if (nX : ℤ) ≤ n_eval then
    .error "`validation_fraction` is too large! There are no samples for training!"
  else .ok (train st)

/-! ## Batching: `Conv1dTextVAE.texts_to_data` (source lines 828-866),
`transform` (402-414) and `predict` (416-484)

The per-text vectorization (tokenizer + fastText lookup + padding) depends only
on the text picked for a slot, so it enters as the parameter `vec`; the VAE
encoder applied to one row enters as `enc`; the whole decode pipeline for one
input text (VAE round trip plus greedy character loop) enters as `gen`. -/

/-- `int(math.ceil(len(input_texts) / batch_size))`. -/
def ceilBatches (n bs : Nat) : Nat := (n + bs - 1) / bs

/-- `Conv1dTextVAE.texts_to_data`: every batch has exactly `batch_size` rows;
a slot index at or beyond `len(input_texts)` falls back to the last text. -/
def texts_to_data {ρ : Type} (texts : List String) (bs : Nat) (vec : String → ρ) :
    List (List ρ) :=
  (List.range (ceilBatches texts.length bs)).map fun b =>
    (List.range bs).map fun i =>
      vec (texts.getD (if b * bs + i < texts.length then b * bs + i else texts.length - 1) "")

/-- The text-accumulation structure of `predict`: per batch, only the first
`n_texts_in_batch = min(batch_size, len(X) - start_pos)` decoded sentences are
appended. -/
def predictTexts (texts : List String) (bs : Nat) (gen : String → String) : List String :=
  ((List.range (ceilBatches texts.length bs)).map fun b =>
    (List.range (min bs (texts.length - b * bs))).map fun i =>
      gen (texts.getD (b * bs + i) "")).flatten

/-- The accumulation loop of `transform`: encode each batch, then keep
`outputs_for_batch[:n]` with `n` trimmed against `len(X)`. -/
def transformModel {ρ β : Type} (texts : List String) (bs : Nat)
    (vec : String → ρ) (enc : ρ → β) : List β :=
  (texts_to_data texts bs vec).foldl
    (fun outputs batch =>
      let n := if outputs.length + bs ≤ texts.length then bs else texts.length - outputs.length
      outputs ++ (batch.map enc).take n) []

/-- The three container kinds `predict` accepts and returns. -/
inductive PyTexts (α : Type) where
  | plist (items : List α)
  | ptuple (items : List α)
  | pndarray (items : List α)
deriving DecidableEq

/-- The contents of a container. -/
def PyTexts.items {α : Type} : PyTexts α → List α
  | .plist l => l
  | .ptuple l => l
  | .pndarray l => l

/-- Rebuild a container of the same kind around new contents. -/
def PyTexts.rewrap {α β : Type} : PyTexts α → List β → PyTexts β
  | .plist _, l => .plist l
  | .ptuple _, l => .ptuple l
  | .pndarray _, l => .pndarray l

/-- `Conv1dTextVAE.predict`: the final return statement keeps the container
kind (`np.array` for `np.ndarray` input, `tuple` for `tuple`, else `list`). -/
def predictContainer (X : PyTexts String) (bs : Nat) (gen : String → String) :
    PyTexts String :=
  match X with
  | .plist l => .plist (predictTexts l bs gen)
  | .ptuple l => .ptuple (predictTexts l bs gen)
  | .pndarray l => .pndarray (predictTexts l bs gen)

/-! ## General helper lemmas -/

theorem getD_set_self {α : Type} {l : List α} {c : Nat} (h : c < l.length) (v d : α) :
    (l.set c v).getD c d = v := by
  rw [List.getD_eq_getElem?_getD, List.getElem?_set_self h]
  rfl

theorem getD_set_ne {α : Type} {l : List α} {c e : Nat} (h : c ≠ e) (v : α) (d : α) :
    (l.set c v).getD e d = l.getD e d := by
  rw [List.getD_eq_getElem?_getD, List.getElem?_set_ne h, List.getD_eq_getElem?_getD]

theorem getD_replicate {α : Type} {n c : Nat} (h : c < n) (v d : α) :
    (List.replicate n v).getD c d = v := by
  rw [List.getD_eq_getElem?_getD, List.getElem?_replicate]
  simp [h]

theorem getD_range_map {α : Type} {T t : Nat} (f : Nat → α) (d : α) (h : t < T) :
    (((List.range T).map f).getD t d) = f t := by
  simp [List.getElem?_map, List.getElem?_range h]

/-- Mapping a function of the padded index over `range l.length` is just `map`. -/
theorem range_map_getD {α β : Type} (f : α → β) (d : α) :
    ∀ (l : List α), (List.range l.length).map (fun i => f (l.getD i d)) = l.map f := by
  intro l
  induction l with
  | nil => simp
  | cons a t ih =>
      rw [List.length_cons, List.range_succ_eq_map, List.map_cons, List.map_map]
      refine congrArg (f ((a :: t).getD 0 d) :: ·) ?_
      rw [← ih]
      refine List.map_congr_left fun i _ => ?_
      simp [Function.comp]

/-- Cutting a list into `k` consecutive `bs`-sized chunks and flattening them
recovers the list, provided `k * bs` covers its length. -/
theorem flatten_chunks {α : Type} (bs : Nat) :
    ∀ (k : Nat) (l : List α), l.length ≤ k * bs →
      ((List.range k).map fun b => (l.drop (b * bs)).take bs).flatten = l := by
  intro k
  induction k with
  | zero =>
      intro l h
      simp only [Nat.zero_mul, Nat.le_zero] at h
      simp [List.eq_nil_of_length_eq_zero h]
  | succ k ih =>
      intro l h
      rw [List.range_succ_eq_map, List.map_cons, List.map_map, List.flatten_cons]
      have h2 : ∀ b : Nat, (l.drop ((b + 1) * bs)) = ((l.drop bs).drop (b * bs)) := by
        intro b
        rw [List.drop_drop]
        ring_nf
      have h3 : ((List.range k).map fun b => ((l.drop bs).drop (b * bs)).take bs).flatten
          = l.drop bs := by
        refine ih (l.drop bs) ?_
        simp only [List.length_drop]
        have hsm : (k + 1) * bs = k * bs + bs := by ring
        omega
      calc (l.drop (0 * bs)).take bs ++
            ((List.range k).map ((fun b => (l.drop (b * bs)).take bs) ∘ (· + 1))).flatten
          = l.take bs ++ ((List.range k).map fun b => ((l.drop bs).drop (b * bs)).take bs).flatten := by
            congr 1
            · simp
            · congr 1
              refine List.map_congr_left fun b _ => ?_
              simp [Function.comp, h2 b]
        _ = l.take bs ++ l.drop bs := by rw [h3]
        _ = l := List.take_append_drop bs l

/-- `len ≤ ceil(len / bs) * bs` for a positive batch size. -/
theorem le_ceilBatches_mul {n bs : Nat} (hbs : 1 ≤ bs) : n ≤ ceilBatches n bs * bs := by
  unfold ceilBatches
  have hdm := Nat.div_add_mod (n + bs - 1) bs
  have hml : (n + bs - 1) % bs < bs := Nat.mod_lt _ (by omega)
  have hc : bs * ((n + bs - 1) / bs) = ((n + bs - 1) / bs) * bs := Nat.mul_comm _ _
  omega

/-! ## Claim C4 -/

/-- C4: `find_best_texts` called on the candidate lists
`[[("cat", 0.1), ("dog", 0.3)], [("ran", 0.05)]]` with `ntop = 2` returns
exactly `["cat ran", "dog ran"]`, in that order. -/
theorem find_best_texts_cat_dog :
    find_best_texts [[("cat", 1 / 10), ("dog", 3 / 10)], [("ran", 1 / 20)]] 2
      = ["cat ran", "dog ran"] := by
  decide

/-! ## Claim C10 -/

/-- C10: for every input array whose number of dimensions is not 3,
`postprocess_reconstructed_word_vectors` raises a `ValueError` and produces no
output array. -/
theorem postprocess_non3d_raises (a : NDArray) (h : a.shape.length ≠ 3) :
    postprocess_reconstructed_word_vectors a =
      Except.error ("The `word_vectors` parameter is wrong! Expected 3-D array, got " ++
        toString a.shape.length ++ "-D array!") := by
  rcases a with ⟨shape, data⟩
  rcases shape with _ | ⟨b, _ | ⟨t, _ | ⟨w, _ | ⟨u, rest⟩⟩⟩⟩
  · rfl
  · rfl
  · rfl
  · exact absurd rfl h
  · rfl

/-- Witness for C10 at the concrete 2-D array of shape `[2, 2]`. -/
theorem postprocess_non3d_raises_witness :
    ([2, 2] : List Nat).length ≠ 3 ∧
    postprocess_reconstructed_word_vectors ⟨[2, 2], [1, 0, 0, 1]⟩ =
      Except.error ("The `word_vectors` parameter is wrong! Expected 3-D array, got " ++
        toString (([2, 2] : List Nat).length) ++ "-D array!") :=
  ⟨by decide, postprocess_non3d_raises ⟨[2, 2], [1, 0, 0, 1]⟩ (by decide)⟩

/-! ## Claim C7 -/

/-- C7: whenever `round(len(X) * validation_fraction)` is below 1 or at least
`len(X)`, `fit` raises a `ValueError` before any training work: the training
body — the only place fitted attributes are assigned — is never entered, so the
fitted state is unchanged. -/
theorem fit_validation_split_guard {σ : Type} (st : σ) (train : σ → σ) (nX : Nat) (f : ℚ)
    (h : pyRound (nX * f) < 1 ∨ (nX : ℤ) ≤ pyRound (nX * f)) :
    fitModel nX f st train =
      Except.error (if pyRound (nX * f) < 1 then
        "`validation_fraction` is too small! There are no samples for evaluation!"
      else
        "`validation_fraction` is too large! There are no samples for training!") := by
  unfold fitModel
  rcases h with h | h
  · rw [if_pos h, if_pos h]
  · by_cases h1 : pyRound (nX * f) < 1
    · rw [if_pos h1, if_pos h1]
    · rw [if_neg h1, if_pos h, if_neg h1]

/-- Witness for C7: ten texts and `validation_fraction = 0.3` pass the guard
(`round(3.0) = 3`), but `validation_fraction = 0.03` rounds down to 0 evaluation
samples and errors out. -/
theorem fit_validation_split_guard_witness :
    (pyRound ((10 : Nat) * (3 / 100 : ℚ)) < 1 ∨ ((10 : Nat) : ℤ) ≤ pyRound ((10 : Nat) * (3 / 100 : ℚ))) ∧
    fitModel 10 (3 / 100 : ℚ) (0 : Nat) id =
      Except.error (if pyRound ((10 : Nat) * (3 / 100 : ℚ)) < 1 then
        "`validation_fraction` is too small! There are no samples for evaluation!"
      else
        "`validation_fraction` is too large! There are no samples for training!") := by
  have h : pyRound ((10 : Nat) * (3 / 100 : ℚ)) < 1 ∨
      ((10 : Nat) : ℤ) ≤ pyRound ((10 : Nat) * (3 / 100 : ℚ)) := by
    left
    norm_num [pyRound]
  exact ⟨h, fit_validation_split_guard 0 id 10 (3 / 100) h⟩

/-! ## Claim C6 -/

/-- Full characterisation of the per-text greedy decode loop, by induction on the
remaining fuel.  `t` counts the characters already emitted. -/
theorem charLoopAux_spec (next : Nat → String) (eos : String) (bound : Nat) :
    ∀ (fuel t : Nat), 1 ≤ fuel → t + fuel = bound + 1 →
      1 ≤ (charLoopAux next eos bound fuel t).length ∧
      (charLoopAux next eos bound fuel t).length ≤ fuel ∧
      charLoopAux next eos bound fuel t =
        (List.range (charLoopAux next eos bound fuel t).length).map (fun j => next (t + j)) ∧
      (∀ j, j + 1 < (charLoopAux next eos bound fuel t).length → next (t + j) ≠ eos) ∧
      ((charLoopAux next eos bound fuel t).length < fuel →
        next (t + ((charLoopAux next eos bound fuel t).length - 1)) = eos) := by
  intro fuel
  induction fuel with
  | zero => intro t h1 _; omega
  | succ g ih =>
      intro t _ hinv
      by_cases hstop : next t = eos ∨ bound < t + 1
      · have hres : charLoopAux next eos bound (g + 1) t = [next t] := by
          conv_lhs => rw [charLoopAux]
          rw [if_pos hstop]
        refine ⟨by simp [hres], by simp [hres], by rw [hres]; simp [List.range_succ], ?_, ?_⟩
        · intro j hj
          simp [hres] at hj
        · intro hlt
          rw [hres] at hlt ⊢
          simp only [List.length_cons, List.length_nil] at hlt ⊢
          have heos : next t = eos := by
            rcases hstop with h | h
            · exact h
            · omega
          simpa using heos
      · have hg : 1 ≤ g := by
          push_neg at hstop
          omega
        have hres : charLoopAux next eos bound (g + 1) t
            = next t :: charLoopAux next eos bound g (t + 1) := by
          conv_lhs => rw [charLoopAux]
          rw [if_neg hstop]
        have hinv2 : (t + 1) + g = bound + 1 := by omega
        obtain ⟨ih1, ih2, ih3, ih4, ih5⟩ := ih (t + 1) hg hinv2
        push_neg at hstop
        refine ⟨by simp [hres], by simp [hres]; omega, ?_, ?_, ?_⟩
        · rw [hres, List.length_cons, List.range_succ_eq_map, List.map_cons, List.map_map]
          refine congrArg₂ (· :: ·) (by simp) ?_
          conv_lhs => rw [ih3]
          refine List.map_congr_left fun j _ => ?_
          simp only [Function.comp]
          exact congrArg next (by omega)
        · intro j hj
          cases j with
          | zero => simpa using hstop.1
          | succ j =>
              rw [hres, List.length_cons] at hj
              have := ih4 j (by omega)
              simpa [Nat.add_assoc, Nat.add_comm 1 j] using this
        · intro hlt
          rw [hres, List.length_cons] at hlt ⊢
          have hlen1 : 1 ≤ (charLoopAux next eos bound g (t + 1)).length := ih1
          have := ih5 (by omega)
          have harith : t + 1 + ((charLoopAux next eos bound g (t + 1)).length - 1)
              = t + ((charLoopAux next eos bound g (t + 1)).length + 1 - 1) := by omega
          rwa [harith] at this

/-- C6 (amended): with the bound `output_text_size_in_characters_` fixed by `fit`
as the maximum target character-sequence length plus 3, the greedy loop of
`predict` emits each greedy character in order and stops exactly when the EOS
marker is emitted or the number of emitted characters exceeds the bound; hence a
returned text holds at most `bound + 1` emitted characters (one more than the
bound), the earlier ones are never EOS, and any run that stops within the bound
stops because its last character is EOS; runs cut off by the bound are returned
truncated, not flagged as errors. -/
theorem predict_char_loop_spec (next : Nat → String) (eos : String)
    (targets : List (List String)) (bound : Nat)
    (hb : bound = output_text_size_in_characters targets) :
    1 ≤ (charLoop next eos bound).length ∧
    (charLoop next eos bound).length ≤ bound + 1 ∧
    charLoop next eos bound = (List.range (charLoop next eos bound).length).map next ∧
    (∀ j, j + 1 < (charLoop next eos bound).length → next j ≠ eos) ∧
    ((charLoop next eos bound).length ≤ bound →
      next ((charLoop next eos bound).length - 1) = eos) := by
  obtain ⟨h1, h2, h3, h4, h5⟩ :=
    charLoopAux_spec next eos bound (bound + 1) 0 (by omega) (by omega)
  unfold charLoop
  refine ⟨h1, h2, ?_, ?_, ?_⟩
  · conv_lhs => rw [h3]
    exact List.map_congr_left fun j _ => by rw [Nat.zero_add]
  · intro j hj
    have := h4 j hj
    rwa [Nat.zero_add] at this
  · intro hle
    have := h5 (by omega)
    rwa [Nat.zero_add] at this

/-- Witness for C6's amended statement: a decoder that emits `"a"`, `"b"` and
then EOS, with a bound of 4 fixed from a single 1-character target. -/
theorem predict_char_loop_spec_witness :
    (4 = output_text_size_in_characters [["x"]]) ∧
    (1 ≤ (charLoop (fun t => if t = 0 then "a" else if t = 1 then "b" else "<EOS>") "<EOS>" 4).length ∧
     (charLoop (fun t => if t = 0 then "a" else if t = 1 then "b" else "<EOS>") "<EOS>" 4).length ≤ 4 + 1 ∧
     charLoop (fun t => if t = 0 then "a" else if t = 1 then "b" else "<EOS>") "<EOS>" 4 =
       (List.range (charLoop (fun t => if t = 0 then "a" else if t = 1 then "b" else "<EOS>") "<EOS>" 4).length).map
         (fun t => if t = 0 then "a" else if t = 1 then "b" else "<EOS>") ∧
     (∀ j, j + 1 < (charLoop (fun t => if t = 0 then "a" else if t = 1 then "b" else "<EOS>") "<EOS>" 4).length →
       (if j = 0 then "a" else if j = 1 then "b" else "<EOS>") ≠ "<EOS>") ∧
     ((charLoop (fun t => if t = 0 then "a" else if t = 1 then "b" else "<EOS>") "<EOS>" 4).length ≤ 4 →
       (if ((charLoop (fun t => if t = 0 then "a" else if t = 1 then "b" else "<EOS>") "<EOS>" 4).length - 1) = 0
        then "a"
        else if ((charLoop (fun t => if t = 0 then "a" else if t = 1 then "b" else "<EOS>") "<EOS>" 4).length - 1) = 1
        then "b" else "<EOS>") = "<EOS>")) :=
  ⟨by decide,
    predict_char_loop_spec (fun t => if t = 0 then "a" else if t = 1 then "b" else "<EOS>")
      "<EOS>" [["x"]] 4 (by decide)⟩

/-- C6 counterexample: the claim says every returned text holds at most
`output_text_size_in_characters_` characters, but a decoder that never emits EOS
yields `bound + 1` characters: with the bound 4 (single 1-character target,
`1 + 3`), 5 characters come back. -/
theorem predict_char_loop_counterexample :
    output_text_size_in_characters [["x"]] = 4 ∧
    (charLoop (fun _ => "a") "<EOS>" (output_text_size_in_characters [["x"]])).length = 5 ∧
    generatedText (fun _ => "a") "<EOS>" (output_text_size_in_characters [["x"]]) = "aaaaa" := by
  decide

/-! ## Claims C8 and C9 -/

/-- Indexing a slice `texts[s : s + bs]` through `getD` is mapping over the
slice itself. -/
theorem slice_map {α β : Type} (g : α → β) (d : α) (texts : List α) (s bs : Nat) :
    (List.range (min bs (texts.length - s))).map (fun i => g (texts.getD (s + i) d))
      = ((texts.drop s).take bs).map g := by
  have hlen : ((texts.drop s).take bs).length = min bs (texts.length - s) := by
    simp [List.length_take, List.length_drop]
  have hpt : ∀ i, i < min bs (texts.length - s) →
      ((texts.drop s).take bs).getD i d = texts.getD (s + i) d := by
    intro i hi
    rw [List.getD_eq_getElem?_getD, List.getD_eq_getElem?_getD,
      List.getElem?_take_of_lt (by omega), List.getElem?_drop]
  calc (List.range (min bs (texts.length - s))).map (fun i => g (texts.getD (s + i) d))
      = (List.range ((texts.drop s).take bs).length).map
          (fun i => g (((texts.drop s).take bs).getD i d)) := by
        rw [hlen]
        refine List.map_congr_left fun i hi => ?_
        rw [hpt i (List.mem_range.mp hi)]
    _ = ((texts.drop s).take bs).map g := range_map_getD g d _

/-- The decoded-text accumulation of `predict` returns exactly the input texts'
decodes, in order. -/
theorem predictTexts_eq (texts : List String) (bs : Nat) (gen : String → String)
    (hbs : 1 ≤ bs) : predictTexts texts bs gen = texts.map gen := by
  unfold predictTexts
  have h1 : ∀ b : Nat,
      (List.range (min bs (texts.length - b * bs))).map (fun i => gen (texts.getD (b * bs + i) ""))
        = ((texts.map gen).drop (b * bs)).take bs := by
    intro b
    rw [slice_map gen "" texts (b * bs) bs, List.map_take, List.map_drop]
  calc ((List.range (ceilBatches texts.length bs)).map fun b =>
          (List.range (min bs (texts.length - b * bs))).map fun i =>
            gen (texts.getD (b * bs + i) "")).flatten
      = ((List.range (ceilBatches texts.length bs)).map fun b =>
          ((texts.map gen).drop (b * bs)).take bs).flatten := by
        refine congrArg List.flatten (List.map_congr_left fun b _ => h1 b)
    _ = texts.map gen := by
        refine flatten_chunks bs (ceilBatches texts.length bs) (texts.map gen) ?_
        rw [List.length_map]
        exact le_ceilBatches_mul hbs

/-- C8: for every fitted estimator and valid input collection, `predict` returns
exactly one generated text per input text, in input order, and the returned
container kind matches the input's (list, tuple, or numpy array). -/
theorem predict_container_spec (X : PyTexts String) (bs : Nat) (gen : String → String)
    (hbs : 1 ≤ bs) :
    predictContainer X bs gen = X.rewrap (X.items.map gen) ∧
    (predictContainer X bs gen).items.length = X.items.length := by
  cases X with
  | plist l =>
      simp [predictContainer, PyTexts.rewrap, PyTexts.items, predictTexts_eq l bs gen hbs]
  | ptuple l =>
      simp [predictContainer, PyTexts.rewrap, PyTexts.items, predictTexts_eq l bs gen hbs]
  | pndarray l =>
      simp [predictContainer, PyTexts.rewrap, PyTexts.items, predictTexts_eq l bs gen hbs]

/-- Witness for C8 on a three-text tuple with batch size 2. -/
theorem predict_container_spec_witness :
    (1 ≤ 2) ∧
    (predictContainer (PyTexts.ptuple ["u", "v", "w"]) 2 (fun s => s ++ "!")
        = (PyTexts.ptuple ["u", "v", "w"]).rewrap
            ((PyTexts.ptuple ["u", "v", "w"]).items.map (fun s => s ++ "!")) ∧
     (predictContainer (PyTexts.ptuple ["u", "v", "w"]) 2 (fun s => s ++ "!")).items.length
        = (PyTexts.ptuple ["u", "v", "w"]).items.length) :=
  ⟨by decide, predict_container_spec (PyTexts.ptuple ["u", "v", "w"]) 2 (fun s => s ++ "!")
      (by decide)⟩

/-- A batch index below the batch count starts strictly inside the text list. -/
theorem batch_start_lt {n bs b : Nat} (hbs : 1 ≤ bs) (h : b < ceilBatches n bs) :
    b * bs < n := by
  by_contra hc
  push_neg at hc
  have hle : ceilBatches n bs ≤ b := by
    unfold ceilBatches
    rw [Nat.div_le_iff_le_mul_add_pred (by omega : 0 < bs)]
    have hbsb : bs * b = b * bs := Nat.mul_comm _ _
    omega
  omega

/-- The state of the `transform` accumulation loop after `k` full batches:
the encodings of the first `k * batch_size` texts. -/
theorem transform_fold_take (texts : List String) (bs : Nat) {ρ β : Type}
    (vec : String → ρ) (enc : ρ → β) (hbs : 1 ≤ bs) :
    ∀ k, k ≤ ceilBatches texts.length bs →
      (List.range k).foldl
        (fun outputs b =>
          let n := if outputs.length + bs ≤ texts.length then bs
                   else texts.length - outputs.length
          outputs ++ ((((List.range bs).map fun i =>
            vec (texts.getD (if b * bs + i < texts.length then b * bs + i
              else texts.length - 1) "")).map enc).take n)) []
      = (texts.map fun t => enc (vec t)).take (k * bs) := by
  intro k
  induction k with
  | zero => intro _; simp
  | succ k ih =>
      intro hk1
      have hk : k < ceilBatches texts.length bs := by omega
      have hstart : k * bs < texts.length := batch_start_lt hbs hk
      rw [List.range_succ, List.foldl_append, ih (by omega)]
      simp only [List.foldl_cons, List.foldl_nil]
      have holen : ((texts.map fun t => enc (vec t)).take (k * bs)).length = k * bs := by
        rw [List.length_take, List.length_map]
        omega
      have hbatch : ∀ n, n = min bs (texts.length - k * bs) →
          ((((List.range bs).map fun i =>
            vec (texts.getD (if k * bs + i < texts.length then k * bs + i
              else texts.length - 1) "")).map enc).take n)
          = ((texts.map fun t => enc (vec t)).drop (k * bs)).take bs := by
        intro n hn
        have hstep : (((List.range bs).map fun i =>
            vec (texts.getD (if k * bs + i < texts.length then k * bs + i
              else texts.length - 1) "")).map enc).take n
            = (List.range (min bs (texts.length - k * bs))).map
                (fun i => enc (vec (texts.getD (k * bs + i) ""))) := by
          rw [List.map_map, ← List.map_take, List.take_range, hn]
          have hmm : min (min bs (texts.length - k * bs)) bs = min bs (texts.length - k * bs) := by
            omega
          rw [hmm]
          refine List.map_congr_left fun i hi => ?_
          have hilt : i < min bs (texts.length - k * bs) := List.mem_range.mp hi
          have : k * bs + i < texts.length := by omega
          simp [Function.comp, this]
        rw [hstep, slice_map (fun t => enc (vec t)) "" texts (k * bs) bs,
          List.map_take, List.map_drop]
      have hmul : k * bs + bs = (k + 1) * bs := by ring
      by_cases hc : ((texts.map fun t => enc (vec t)).take (k * bs)).length + bs ≤ texts.length
      · rw [if_pos hc, hbatch bs (by omega), ← List.take_add, hmul]
      · rw [if_neg hc,
          hbatch (texts.length - ((texts.map fun t => enc (vec t)).take (k * bs)).length)
            (by omega),
          ← List.take_add, hmul]

/-- C9: `texts_to_data` yields exactly `ceil(len(texts) / batch_size)` batches of
exactly `batch_size` rows; slots of the final batch beyond the remaining texts
hold the vectorization of the last input text; and both `transform` and
`predict` trim the duplicated trailing rows, producing exactly one latent row
(resp. one generated text) per input, in input order. -/
theorem texts_to_data_spec (texts : List String) (bs : Nat) {ρ β : Type}
    (vec : String → ρ) (enc : ρ → β) (gen : String → String) (hbs : 1 ≤ bs) :
    (texts_to_data texts bs vec).length = ceilBatches texts.length bs ∧
    (∀ batch ∈ texts_to_data texts bs vec, batch.length = bs) ∧
    (∀ b i, b < ceilBatches texts.length bs → i < bs → texts.length ≤ b * bs + i →
      ((texts_to_data texts bs vec).getD b []).getD i (vec "")
        = vec (texts.getD (texts.length - 1) "")) ∧
    transformModel texts bs vec enc = texts.map (fun t => enc (vec t)) ∧
    predictTexts texts bs gen = texts.map gen := by
  refine ⟨?_, ?_, ?_, ?_, predictTexts_eq texts bs gen hbs⟩
  · simp [texts_to_data]
  · intro batch hb
    unfold texts_to_data at hb
    obtain ⟨b, _, rfl⟩ := List.mem_map.mp hb
    simp
  · intro b i hblt hilt hover
    unfold texts_to_data
    rw [getD_range_map _ _ hblt, getD_range_map _ _ hilt, if_neg (by omega)]
  · unfold transformModel texts_to_data
    rw [List.foldl_map]
    have := transform_fold_take texts bs vec enc hbs (ceilBatches texts.length bs) le_rfl
    rw [this]
    refine List.take_of_length_le ?_
    rw [List.length_map]
    exact le_ceilBatches_mul hbs

/-- Witness for C9 on three texts with batch size 2: two batches, the final slot
duplicating the last text, outputs trimmed to three entries. -/
theorem texts_to_data_spec_witness :
    (1 ≤ 2) ∧
    ((texts_to_data ["p", "q", "r"] 2 (fun s => s ++ "#")).length = ceilBatches 3 2 ∧
     (∀ batch ∈ texts_to_data ["p", "q", "r"] 2 (fun s => s ++ "#"), batch.length = 2) ∧
     (∀ b i, b < ceilBatches 3 2 → i < 2 → 3 ≤ b * 2 + i →
       ((texts_to_data ["p", "q", "r"] 2 (fun s => s ++ "#")).getD b []).getD i ("" ++ "#")
         = (["p", "q", "r"].getD (3 - 1) "") ++ "#") ∧
     transformModel ["p", "q", "r"] 2 (fun s => s ++ "#") (fun s => s ++ "$")
       = ["p", "q", "r"].map (fun t => (t ++ "#") ++ "$") ∧
     predictTexts ["p", "q", "r"] 2 (fun s => s ++ "@") = ["p", "q", "r"].map (fun s => s ++ "@")) :=
  ⟨by decide,
    texts_to_data_spec ["p", "q", "r"] 2 (fun s => s ++ "#") (fun s => s ++ "$")
      (fun s => s ++ "@") (by decide)⟩

/-! ## Claim C1 -/

/-- Unrolling of the substitution loop of `find_best_texts`: the accumulated
strings are the joins of the successive running variants, each obtained from its
predecessor by one in-place substitution. -/
theorem foldl_substStep (variants : List (List (String × ℚ))) :
    ∀ (subs : List ((Nat × Nat) × ℚ)) (acc cur : List String),
      subs.foldl (substStep variants) (acc, cur) =
        (acc ++ (List.range subs.length).map
            (fun i => joinWords ((subs.take (i + 1)).foldl (wordStep variants) cur)),
         subs.foldl (wordStep variants) cur) := by
  intro subs
  induction subs with
  | nil => intro acc cur; simp
  | cons s rest ih =>
      intro acc cur
      rw [List.foldl_cons,
        show substStep variants (acc, cur) s
          = (acc ++ [joinWords (wordStep variants cur s)], wordStep variants cur s) from rfl,
        ih]
      refine Prod.ext ?_ rfl
      simp only [List.length_cons, List.range_succ_eq_map, List.map_cons, List.map_map,
        List.take_succ_cons, List.foldl_cons, List.append_assoc, List.singleton_append]
      refine congrArg (acc ++ ·) ?_
      refine congrArg₂ (· :: ·) (by simp) ?_
      refine List.map_congr_left fun i _ => ?_
      simp [Function.comp]

/-- First component of `foldl_substStep`. -/
theorem foldl_substStep_fst (variants : List (List (String × ℚ)))
    (subs : List ((Nat × Nat) × ℚ)) (acc cur : List String) :
    (subs.foldl (substStep variants) (acc, cur)).1 =
      acc ++ (List.range subs.length).map
        (fun i => joinWords ((subs.take (i + 1)).foldl (wordStep variants) cur)) := by
  rw [foldl_substStep]

/-- C1 (amended): the first returned text is the greedy choice; each later
returned text is the join of a running variant obtained from the *previous*
variant (not the greedy baseline) by substituting the alternative candidate at
one position, substitutions taken in ascending order of distance with ties
broken by position then rank. -/
theorem find_best_texts_spec (variants : List (List (String × ℚ))) (ntop : Nat)
    (hne : ∀ l ∈ variants, l ≠ []) :
    find_best_texts variants ntop
      = (List.range (min (ntop - 1) (sortedSubs variants).length + 1)).map
          (fun i => joinWords (variantWords variants i)) ∧
    variantWords variants 0 = greedyWords variants ∧
    (∀ i, i < (sortedSubs variants).length →
      variantWords variants (i + 1)
        = wordStep variants (variantWords variants i)
            ((sortedSubs variants).getD i ((0, 0), 0))) ∧
    List.Sorted subLe (sortedSubs variants) ∧
    (sortedSubs variants).Perm (subsOf variants) := by
  refine ⟨?_, by simp [variantWords], ?_, List.sorted_insertionSort subLe _,
    List.perm_insertionSort subLe _⟩
  · have hunf : find_best_texts variants ntop
        = (((sortedSubs variants).take (ntop - 1)).foldl (substStep variants)
            ([joinWords (greedyWords variants)], greedyWords variants)).1 := rfl
    rw [hunf, foldl_substStep_fst variants ((sortedSubs variants).take (ntop - 1))
      [joinWords (greedyWords variants)] (greedyWords variants)]
    have hlen : ((sortedSubs variants).take (ntop - 1)).length
        = min (ntop - 1) (sortedSubs variants).length := List.length_take _ _
    rw [hlen, List.range_succ_eq_map, List.map_cons, List.map_map, List.singleton_append]
    refine congrArg₂ (· :: ·) (by simp [variantWords]) ?_
    refine List.map_congr_left fun i hi => ?_
    have hilt : i < min (ntop - 1) (sortedSubs variants).length := List.mem_range.mp hi
    have htt : ((sortedSubs variants).take (ntop - 1)).take (i + 1)
        = (sortedSubs variants).take (i + 1) := by
      rw [List.take_take]
      refine congrArg (fun n => (sortedSubs variants).take n) ?_
      omega
    simp only [Function.comp, variantWords, htt]
  · intro i hlt
    unfold variantWords
    have htake : (sortedSubs variants).take (i + 1)
        = (sortedSubs variants).take i ++ [(sortedSubs variants).getD i ((0, 0), 0)] := by
      rw [List.take_succ, List.getElem?_eq_getElem hlt]
      rw [List.getD_eq_getElem?_getD, List.getElem?_eq_getElem hlt]
      rfl
    rw [htake, List.foldl_append, List.foldl_cons, List.foldl_nil]

/-- Witness for C1's amended statement on the concrete candidate lists of the
spec's own test vector. -/
theorem find_best_texts_spec_witness :
    (∀ l ∈ [[("cat", (1 : ℚ)), ("dog", 2)], [("ran", 3)]], l ≠ []) ∧
    (find_best_texts [[("cat", (1 : ℚ)), ("dog", 2)], [("ran", 3)]] 2
      = (List.range (min (2 - 1) (sortedSubs [[("cat", (1 : ℚ)), ("dog", 2)], [("ran", 3)]]).length + 1)).map
          (fun i => joinWords (variantWords [[("cat", (1 : ℚ)), ("dog", 2)], [("ran", 3)]] i)) ∧
    variantWords [[("cat", (1 : ℚ)), ("dog", 2)], [("ran", 3)]] 0
      = greedyWords [[("cat", (1 : ℚ)), ("dog", 2)], [("ran", 3)]] ∧
    (∀ i, i < (sortedSubs [[("cat", (1 : ℚ)), ("dog", 2)], [("ran", 3)]]).length →
      variantWords [[("cat", (1 : ℚ)), ("dog", 2)], [("ran", 3)]] (i + 1)
        = wordStep [[("cat", (1 : ℚ)), ("dog", 2)], [("ran", 3)]]
            (variantWords [[("cat", (1 : ℚ)), ("dog", 2)], [("ran", 3)]] i)
            ((sortedSubs [[("cat", (1 : ℚ)), ("dog", 2)], [("ran", 3)]]).getD i ((0, 0), 0))) ∧
    List.Sorted subLe (sortedSubs [[("cat", (1 : ℚ)), ("dog", 2)], [("ran", 3)]]) ∧
    (sortedSubs [[("cat", (1 : ℚ)), ("dog", 2)], [("ran", 3)]]).Perm
      (subsOf [[("cat", (1 : ℚ)), ("dog", 2)], [("ran", 3)]])) :=
  ⟨by decide,
    find_best_texts_spec [[("cat", (1 : ℚ)), ("dog", 2)], [("ran", 3)]] 2 (by decide)⟩

/-! ## Claim C5 -/

theorem noiseCount_cons (l : ℤ) (rest : List ℤ) :
    noiseCount (l :: rest) = (if l < 0 then 1 else 0) + noiseCount rest := by
  unfold noiseCount
  rw [List.filter_cons]
  by_cases h : l < 0
  · rw [if_pos (by simpa using h), if_pos h, List.length_cons]
    omega
  · rw [if_neg (by simpa using h), if_neg h]
    omega

theorem clusterIds_length (ncl : Nat) :
    ∀ (labels : List ℤ) (nn : Nat), (clusterIds ncl nn labels).length = labels.length := by
  intro labels
  induction labels with
  | nil => intro nn; rfl
  | cons l rest ih =>
      intro nn
      rw [clusterIds, List.length_cons, List.length_cons, ih]

theorem clusterIds_lt (ncl : Nat) :
    ∀ (labels : List ℤ) (nn : Nat), (∀ l ∈ labels, 0 ≤ l → l.toNat < ncl) →
      ∀ d ∈ clusterIds ncl nn labels, d < ncl + nn + noiseCount labels := by
  intro labels
  induction labels with
  | nil => intro nn _ d hd; simp [clusterIds] at hd
  | cons l rest ih =>
      intro nn hbound d hd
      rw [clusterIds] at hd
      rcases List.mem_cons.mp hd with rfl | hd
      · by_cases h0 : (0 : ℤ) ≤ l
        · rw [if_pos h0]
          have := hbound l (by simp) h0
          omega
        · rw [if_neg h0]
          rw [noiseCount_cons, if_pos (by omega)]
          omega
      · by_cases h0 : (0 : ℤ) ≤ l
        · have := ih nn (fun x hx => hbound x (List.mem_cons_of_mem l hx)) d (by rwa [if_pos h0] at hd)
          rw [noiseCount_cons, if_neg (by omega)]
          omega
        · have := ih (nn + 1) (fun x hx => hbound x (List.mem_cons_of_mem l hx)) d
            (by rwa [if_neg h0] at hd)
          rw [noiseCount_cons, if_pos (by omega)]
          omega

theorem clusterIds_getD (ncl : Nat) :
    ∀ (labels : List ℤ) (nn i : Nat), i < labels.length →
      (clusterIds ncl nn labels).getD i 0
        = if 0 ≤ labels.getD i 0 then (labels.getD i 0).toNat
          else ncl + nn + noiseCount (labels.take i) := by
  intro labels
  induction labels with
  | nil => intro nn i hi; simp at hi
  | cons l rest ih =>
      intro nn i hi
      cases i with
      | zero =>
          rw [clusterIds]
          show (if (0 : ℤ) ≤ l then l.toNat else ncl + nn)
              = if (0 : ℤ) ≤ l then l.toNat else ncl + nn + noiseCount ((l :: rest).take 0)
          split_ifs
          · rfl
          · simp [noiseCount]
      | succ i =>
          simp only [List.length_cons] at hi
          rw [clusterIds]
          have hgd : ∀ (a : Nat) (tl : List Nat), (a :: tl).getD (i + 1) 0 = tl.getD i 0 := by
            intro a tl
            rfl
          have hgdz : ∀ (a : ℤ) (tl : List ℤ), (a :: tl).getD (i + 1) 0 = tl.getD i 0 := by
            intro a tl
            rfl
          rw [hgd, hgdz, ih _ i (by omega), List.take_succ_cons, noiseCount_cons]
          split_ifs <;> omega

theorem count_clusterIds_noise (ncl : Nat) :
    ∀ (labels : List ℤ) (nn j : Nat), (∀ l ∈ labels, 0 ≤ l → l.toNat < ncl) →
      (clusterIds ncl nn labels).count (ncl + j)
        = if nn ≤ j ∧ j < nn + noiseCount labels then 1 else 0 := by
  intro labels
  induction labels with
  | nil =>
      intro nn j _
      rw [show clusterIds ncl nn [] = [] from rfl]
      rw [List.count_nil,
        if_neg (by simp only [noiseCount, List.filter_nil, List.length_nil]; omega)]
  | cons l rest ih =>
      intro nn j hbound
      rw [clusterIds, List.count_cons, noiseCount_cons]
      simp only [beq_iff_eq]
      by_cases h0 : (0 : ℤ) ≤ l
      · simp only [if_pos h0, if_neg (show ¬ l < (0 : ℤ) by omega)]
        rw [ih nn j (fun x hx => hbound x (List.mem_cons_of_mem l hx))]
        have hlt : l.toNat < ncl := hbound l (by simp) h0
        rw [if_neg (show ¬ (l.toNat = ncl + j) by omega)]
        split_ifs <;> omega
      · simp only [if_neg h0, if_pos (show l < (0 : ℤ) by omega)]
        rw [ih (nn + 1) j (fun x hx => hbound x (List.mem_cons_of_mem l hx))]
        by_cases hj : ncl + nn = ncl + j
        · rw [if_pos hj]
          split_ifs <;> omega
        · rw [if_neg hj]
          split_ifs <;> omega

theorem noiseCount_take_lt (labels : List ℤ) (i : Nat) (hi : i < labels.length)
    (hneg : labels.getD i 0 < 0) : noiseCount (labels.take i) < noiseCount labels := by
  have hsplit : labels = labels.take i ++ (labels.getD i 0 :: labels.drop (i + 1)) := by
    conv_lhs => rw [← List.take_append_drop i labels]
    rw [List.drop_eq_getElem_cons hi, List.getD_eq_getElem?_getD, List.getElem?_eq_getElem hi]
    rfl
  conv_rhs => rw [hsplit]
  unfold noiseCount
  rw [List.filter_append, List.length_append, List.filter_cons, if_pos (by simpa using hneg)]
  simp

theorem quantFold_clusters (ncl : Nat) :
    ∀ (ps : List (ℤ × List ℝ)) (st : QState),
      (ps.foldl (quantStep ncl) st).clusters
        = st.clusters ++ clusterIds ncl st.nNoise (ps.map Prod.fst) := by
  intro ps
  induction ps with
  | nil => intro st; simp [clusterIds]
  | cons p rest ih =>
      intro st
      rw [List.foldl_cons, ih, List.map_cons, clusterIds]
      show st.clusters ++ [if 0 ≤ p.1 then p.1.toNat else ncl + st.nNoise] ++ _ = _
      rw [List.append_assoc, List.singleton_append]
      by_cases h0 : (0 : ℤ) ≤ p.1
      · simp only [quantStep, h0, if_true]
      · simp only [quantStep, h0, if_false]

theorem quantFold_freqs_length (ncl : Nat) :
    ∀ (ps : List (ℤ × List ℝ)) (st : QState),
      (ps.foldl (quantStep ncl) st).freqs.length = st.freqs.length := by
  intro ps
  induction ps with
  | nil => intro st; rfl
  | cons p rest ih =>
      intro st
      rw [List.foldl_cons, ih]
      simp [quantStep]

theorem quantFold_centers_length (ncl : Nat) :
    ∀ (ps : List (ℤ × List ℝ)) (st : QState),
      (ps.foldl (quantStep ncl) st).centers.length = st.centers.length := by
  intro ps
  induction ps with
  | nil => intro st; rfl
  | cons p rest ih =>
      intro st
      rw [List.foldl_cons, ih]
      simp [quantStep]

theorem quantFold_freqs (ncl : Nat) :
    ∀ (ps : List (ℤ × List ℝ)) (st : QState) (c : Nat),
      (∀ d ∈ clusterIds ncl st.nNoise (ps.map Prod.fst), d < st.freqs.length) →
      (ps.foldl (quantStep ncl) st).freqs.getD c 0
        = st.freqs.getD c 0 + (clusterIds ncl st.nNoise (ps.map Prod.fst)).count c := by
  intro ps
  induction ps with
  | nil => intro st c _; simp [clusterIds]
  | cons p rest ih =>
      intro st c hb
      rw [List.map_cons, clusterIds] at hb ⊢
      rw [List.foldl_cons, List.count_cons]
      simp only [beq_iff_eq]
      have hid : (if (0 : ℤ) ≤ p.1 then p.1.toNat else ncl + st.nNoise) < st.freqs.length :=
        hb _ (by simp)
      have hnn : (quantStep ncl st p).nNoise
          = if (0 : ℤ) ≤ p.1 then st.nNoise else st.nNoise + 1 := rfl
      have hb2 : ∀ d ∈ clusterIds ncl (quantStep ncl st p).nNoise (rest.map Prod.fst),
          d < (quantStep ncl st p).freqs.length := by
        intro d hd
        rw [hnn] at hd
        have : d < st.freqs.length := hb d (List.mem_cons_of_mem _ hd)
        simpa [quantStep] using this
      rw [ih (quantStep ncl st p) c hb2, hnn]
      have hfr : (quantStep ncl st p).freqs
          = st.freqs.set (if (0 : ℤ) ≤ p.1 then p.1.toNat else ncl + st.nNoise)
              (st.freqs.getD (if (0 : ℤ) ≤ p.1 then p.1.toNat else ncl + st.nNoise) 0 + 1) := rfl
      rw [hfr]
      by_cases hc : (if (0 : ℤ) ≤ p.1 then p.1.toNat else ncl + st.nNoise) = c
      · rw [hc, getD_set_self (hc ▸ hid), if_pos rfl]
        omega
      · rw [getD_set_ne hc, if_neg hc]
        omega

theorem quantFold_centers (ncl : Nat) :
    ∀ (ps : List (ℤ × List ℝ)) (st : QState) (c : Nat),
      (∀ d ∈ clusterIds ncl st.nNoise (ps.map Prod.fst), d < st.centers.length) →
      (ps.foldl (quantStep ncl) st).centers.getD c []
        = ((clusterIds ncl st.nNoise (ps.map Prod.fst)).zip (ps.map Prod.snd)).foldl
            (fun acc q => if q.1 = c then vecAdd acc q.2 else acc) (st.centers.getD c []) := by
  intro ps
  induction ps with
  | nil => intro st c _; simp [clusterIds]
  | cons p rest ih =>
      intro st c hb
      rw [List.map_cons, clusterIds] at hb ⊢
      rw [List.foldl_cons, List.map_cons, List.zip_cons_cons, List.foldl_cons]
      simp only [show ∀ (a : Nat) (b : List ℝ), ((a, b) : Nat × List ℝ).1 = a from
          fun a b => rfl,
        show ∀ (a : Nat) (b : List ℝ), ((a, b) : Nat × List ℝ).2 = b from fun a b => rfl]
      have hid : (if (0 : ℤ) ≤ p.1 then p.1.toNat else ncl + st.nNoise) < st.centers.length :=
        hb _ (by simp)
      have hnn : (quantStep ncl st p).nNoise
          = if (0 : ℤ) ≤ p.1 then st.nNoise else st.nNoise + 1 := rfl
      have hb2 : ∀ d ∈ clusterIds ncl (quantStep ncl st p).nNoise (rest.map Prod.fst),
          d < (quantStep ncl st p).centers.length := by
        intro d hd
        rw [hnn] at hd
        have : d < st.centers.length := hb d (List.mem_cons_of_mem _ hd)
        simpa [quantStep] using this
      rw [ih (quantStep ncl st p) c hb2, hnn]
      have hce : (quantStep ncl st p).centers
          = st.centers.set (if (0 : ℤ) ≤ p.1 then p.1.toNat else ncl + st.nNoise)
              (vecAdd (st.centers.getD (if (0 : ℤ) ≤ p.1 then p.1.toNat
                else ncl + st.nNoise) []) p.2) := rfl
      rw [hce]
      by_cases hc : (if (0 : ℤ) ≤ p.1 then p.1.toNat else ncl + st.nNoise) = c
      · rw [hc, getD_set_self (hc ▸ hid), if_pos rfl]
      · rw [getD_set_ne hc, if_neg hc]

/-- C5: with `N` word vectors and budget `B ≥ 1` (`N > B`),
`quantize_word_vectors` retrieves `k = min(3 * max(1, ⌊N/B⌋), N-1)` neighbour
distances per vector (so the DBSCAN `eps` is the mean of all `N * k` retrieved
distances, and `min_samples = max(1, ⌊N/(4B)⌋)`); it then assigns every word
index exactly one cluster id — a DBSCAN label when non-negative, and a fresh
singleton cluster for every noise-labelled point — and returns centroids that
are the member-vector means rescaled by their Euclidean norm. -/
theorem quantize_word_vectors_spec (wv : List (List ℝ)) (B : Nat)
    (nns : Nat → Nat → List Nat × List ℝ) (dbscanFn : ℝ → Nat → List ℤ)
    (labels : List ℤ) (hl : labels = quantLabels wv.length B nns dbscanFn)
    (hB : 1 ≤ B) (hNB : B < wv.length)
    (hnns : ∀ i, i < wv.length → ((nns i (kOf wv.length B)).2).length = kOf wv.length B)
    (hlen : labels.length = wv.length)
    (hrange : ∀ l ∈ labels, 0 ≤ l → l.toNat < nClustersOf labels) :
    (allDistances wv.length B nns).length = wv.length * kOf wv.length B ∧
    (quantize_word_vectors wv B nns dbscanFn).1
      = clusterIds (nClustersOf labels) 0 labels ∧
    (quantize_word_vectors wv B nns dbscanFn).1.length = wv.length ∧
    (∀ i, i < wv.length → 0 ≤ labels.getD i 0 →
      (quantize_word_vectors wv B nns dbscanFn).1.getD i 0 = (labels.getD i 0).toNat) ∧
    (∀ i, i < wv.length → labels.getD i 0 < 0 →
      (quantize_word_vectors wv B nns dbscanFn).1.getD i 0
        = nClustersOf labels + noiseCount (labels.take i) ∧
      (quantize_word_vectors wv B nns dbscanFn).1.count
        ((quantize_word_vectors wv B nns dbscanFn).1.getD i 0) = 1) ∧
    (quantize_word_vectors wv B nns dbscanFn).2.length
      = nClustersOf labels + noiseCount labels ∧
    (∀ c, c < nClustersOf labels + noiseCount labels →
      (quantize_word_vectors wv B nns dbscanFn).2.getD c []
        = ((memberSum (wv.headD []).length
              ((clusterIds (nClustersOf labels) 0 labels).zip wv) c).map
            (· / (((clusterIds (nClustersOf labels) 0 labels).count c : Nat) : ℝ))).map
            (· / l2norm ((memberSum (wv.headD []).length
              ((clusterIds (nClustersOf labels) 0 labels).zip wv) c).map
            (· / (((clusterIds (nClustersOf labels) 0 labels).count c : Nat) : ℝ))))) := by
  have hwl : labels.length ≤ wv.length := le_of_eq hlen
  have hmapfst : (labels.zip wv).map Prod.fst = labels := List.map_fst_zip labels wv hwl
  have hmapsnd : (labels.zip wv).map Prod.snd = wv :=
    List.map_snd_zip labels wv (ge_of_eq hlen)
  have hst : quantize_word_vectors wv B nns dbscanFn
      = (((quantLabels wv.length B nns dbscanFn).zip wv).foldl
          (quantStep (nClustersOf (quantLabels wv.length B nns dbscanFn)))
          ⟨List.replicate (nClustersOf (quantLabels wv.length B nns dbscanFn)
              + noiseCount (quantLabels wv.length B nns dbscanFn))
              (List.replicate (wv.headD []).length 0),
            List.replicate (nClustersOf (quantLabels wv.length B nns dbscanFn)
              + noiseCount (quantLabels wv.length B nns dbscanFn)) 0, 0, []⟩ |>.clusters,
         (List.range (nClustersOf (quantLabels wv.length B nns dbscanFn)
              + noiseCount (quantLabels wv.length B nns dbscanFn))).map fun c =>
            ((((quantLabels wv.length B nns dbscanFn).zip wv).foldl
                (quantStep (nClustersOf (quantLabels wv.length B nns dbscanFn)))
                ⟨List.replicate (nClustersOf (quantLabels wv.length B nns dbscanFn)
                    + noiseCount (quantLabels wv.length B nns dbscanFn))
                    (List.replicate (wv.headD []).length 0),
                  List.replicate (nClustersOf (quantLabels wv.length B nns dbscanFn)
                    + noiseCount (quantLabels wv.length B nns dbscanFn)) 0, 0, []⟩
              |>.centers.getD c []).map
              (· / ((((quantLabels wv.length B nns dbscanFn).zip wv).foldl
                (quantStep (nClustersOf (quantLabels wv.length B nns dbscanFn)))
                ⟨List.replicate (nClustersOf (quantLabels wv.length B nns dbscanFn)
                    + noiseCount (quantLabels wv.length B nns dbscanFn))
                    (List.replicate (wv.headD []).length 0),
                  List.replicate (nClustersOf (quantLabels wv.length B nns dbscanFn)
                    + noiseCount (quantLabels wv.length B nns dbscanFn)) 0, 0, []⟩
              |>.freqs.getD c 0 : Nat) : ℝ))).map
              (· / l2norm ((((quantLabels wv.length B nns dbscanFn).zip wv).foldl
                (quantStep (nClustersOf (quantLabels wv.length B nns dbscanFn)))
                ⟨List.replicate (nClustersOf (quantLabels wv.length B nns dbscanFn)
                    + noiseCount (quantLabels wv.length B nns dbscanFn))
                    (List.replicate (wv.headD []).length 0),
                  List.replicate (nClustersOf (quantLabels wv.length B nns dbscanFn)
                    + noiseCount (quantLabels wv.length B nns dbscanFn)) 0, 0, []⟩
              |>.centers.getD c []).map
              (· / ((((quantLabels wv.length B nns dbscanFn).zip wv).foldl
                (quantStep (nClustersOf (quantLabels wv.length B nns dbscanFn)))
                ⟨List.replicate (nClustersOf (quantLabels wv.length B nns dbscanFn)
                    + noiseCount (quantLabels wv.length B nns dbscanFn))
                    (List.replicate (wv.headD []).length 0),
                  List.replicate (nClustersOf (quantLabels wv.length B nns dbscanFn)
                    + noiseCount (quantLabels wv.length B nns dbscanFn)) 0, 0, []⟩
              |>.freqs.getD c 0 : Nat) : ℝ))))) := rfl
  rw [← hl] at hst
  have hbound : ∀ d ∈ clusterIds (nClustersOf labels) 0 labels,
      d < nClustersOf labels + noiseCount labels := by
    intro d hd
    have := clusterIds_lt (nClustersOf labels) labels 0 hrange d hd
    omega
  have hclusters : (quantize_word_vectors wv B nns dbscanFn).1
      = clusterIds (nClustersOf labels) 0 labels := by
    rw [hst]
    show (((labels.zip wv).foldl (quantStep (nClustersOf labels)) _)).clusters = _
    rw [quantFold_clusters]
    show [] ++ clusterIds (nClustersOf labels) 0 ((labels.zip wv).map Prod.fst) = _
    rw [List.nil_append, hmapfst]
  have hadl : (allDistances wv.length B nns).length = wv.length * kOf wv.length B := by
    unfold allDistances
    rw [List.length_flatten, List.map_map]
    have hc : ∀ i ∈ List.range wv.length,
        (List.length ∘ fun i => (nns i (kOf wv.length B)).2.take (kOf wv.length B)) i
          = kOf wv.length B := by
      intro i hi
      simp only [Function.comp, List.length_take]
      rw [hnns i (List.mem_range.mp hi)]
      omega
    rw [List.map_congr_left hc, List.map_const', List.length_range, List.sum_const_nat]
  refine ⟨hadl, hclusters, ?_, ?_, ?_, ?_, ?_⟩
  · rw [hclusters, clusterIds_length, hlen]
  · intro i hi hpos
    rw [hclusters, clusterIds_getD (nClustersOf labels) labels 0 i (by omega), if_pos hpos]
  · intro i hi hneg
    have hgd : (quantize_word_vectors wv B nns dbscanFn).1.getD i 0
        = nClustersOf labels + noiseCount (labels.take i) := by
      rw [hclusters, clusterIds_getD (nClustersOf labels) labels 0 i (by omega),
        if_neg (by omega), Nat.add_zero]
    refine ⟨hgd, ?_⟩
    rw [hclusters, clusterIds_getD (nClustersOf labels) labels 0 i (by omega),
      if_neg (by omega), Nat.add_zero,
      count_clusterIds_noise (nClustersOf labels) labels 0 (noiseCount (labels.take i)) hrange,
      if_pos ⟨Nat.zero_le _, by
        have := noiseCount_take_lt labels i (by omega) hneg
        omega⟩]
  · rw [hst]
    show ((List.range (nClustersOf labels + noiseCount labels)).map _).length = _
    rw [List.length_map, List.length_range]
  · intro c hc
    have hfr : (((labels.zip wv).foldl (quantStep (nClustersOf labels))
        ⟨List.replicate (nClustersOf labels + noiseCount labels)
            (List.replicate (wv.headD []).length 0),
          List.replicate (nClustersOf labels + noiseCount labels) 0, 0, []⟩)).freqs.getD c 0
        = (clusterIds (nClustersOf labels) 0 labels).count c := by
      rw [quantFold_freqs (nClustersOf labels) (labels.zip wv) _ c
        (by
          intro d hd
          show d < (List.replicate (nClustersOf labels + noiseCount labels) 0).length
          rw [List.length_replicate]
          exact hbound d (by rwa [show (⟨List.replicate (nClustersOf labels + noiseCount labels)
            (List.replicate (wv.headD []).length 0),
            List.replicate (nClustersOf labels + noiseCount labels) 0, 0, []⟩ : QState).nNoise
              = 0 from rfl, hmapfst] at hd))]
      rw [show (⟨List.replicate (nClustersOf labels + noiseCount labels)
          (List.replicate (wv.headD []).length 0),
          List.replicate (nClustersOf labels + noiseCount labels) 0, 0, []⟩ : QState).nNoise
            = 0 from rfl, hmapfst]
      rw [show (⟨List.replicate (nClustersOf labels + noiseCount labels)
          (List.replicate (wv.headD []).length 0),
          List.replicate (nClustersOf labels + noiseCount labels) 0, 0, []⟩ : QState).freqs
            = List.replicate (nClustersOf labels + noiseCount labels) 0 from rfl]
      rw [getD_replicate hc]
      omega
    have hcen : (((labels.zip wv).foldl (quantStep (nClustersOf labels))
        ⟨List.replicate (nClustersOf labels + noiseCount labels)
            (List.replicate (wv.headD []).length 0),
          List.replicate (nClustersOf labels + noiseCount labels) 0, 0, []⟩)).centers.getD c []
        = memberSum (wv.headD []).length
            ((clusterIds (nClustersOf labels) 0 labels).zip wv) c := by
      rw [quantFold_centers (nClustersOf labels) (labels.zip wv) _ c
        (by
          intro d hd
          show d < (List.replicate (nClustersOf labels + noiseCount labels)
            (List.replicate (wv.headD []).length 0)).length
          rw [List.length_replicate]
          exact hbound d (by rwa [show (⟨List.replicate (nClustersOf labels + noiseCount labels)
            (List.replicate (wv.headD []).length 0),
            List.replicate (nClustersOf labels + noiseCount labels) 0, 0, []⟩ : QState).nNoise
              = 0 from rfl, hmapfst] at hd))]
      rw [show (⟨List.replicate (nClustersOf labels + noiseCount labels)
          (List.replicate (wv.headD []).length 0),
          List.replicate (nClustersOf labels + noiseCount labels) 0, 0, []⟩ : QState).nNoise
            = 0 from rfl, hmapfst, hmapsnd]
      rw [show (⟨List.replicate (nClustersOf labels + noiseCount labels)
          (List.replicate (wv.headD []).length 0),
          List.replicate (nClustersOf labels + noiseCount labels) 0, 0, []⟩ : QState).centers
            = List.replicate (nClustersOf labels + noiseCount labels)
                (List.replicate (wv.headD []).length 0) from rfl]
      rw [getD_replicate hc]
      rfl
    rw [hst]
    show ((List.range (nClustersOf labels + noiseCount labels)).map _).getD c [] = _
    rw [getD_range_map _ _ hc, hfr, hcen]

/-- Witness for C5: three unit vectors, budget 1, a constant neighbour oracle
returning 2 distances, and DBSCAN labels `[0, -1, 0]` (sample 1 is noise). -/
theorem quantize_word_vectors_spec_witness :
    ((1 : Nat) ≤ 1 ∧
     1 < ([[(1 : ℝ), 0], [0, 1], [1, 0]] : List (List ℝ)).length ∧
     ([0, -1, 0] : List ℤ)
       = quantLabels ([[(1 : ℝ), 0], [0, 1], [1, 0]] : List (List ℝ)).length 1
           (fun _ _ => ([1, 2], [(1 : ℝ), 1])) (fun _ _ => [0, -1, 0]) ∧
     (∀ i, i < ([[(1 : ℝ), 0], [0, 1], [1, 0]] : List (List ℝ)).length →
       (((fun _ _ => (([1, 2], [(1 : ℝ), 1]) : List Nat × List ℝ)) i
          (kOf ([[(1 : ℝ), 0], [0, 1], [1, 0]] : List (List ℝ)).length 1)).2).length
         = kOf ([[(1 : ℝ), 0], [0, 1], [1, 0]] : List (List ℝ)).length 1) ∧
     ([0, -1, 0] : List ℤ).length = ([[(1 : ℝ), 0], [0, 1], [1, 0]] : List (List ℝ)).length ∧
     (∀ l ∈ ([0, -1, 0] : List ℤ), 0 ≤ l → l.toNat < nClustersOf [0, -1, 0])) ∧
    (allDistances ([[(1 : ℝ), 0], [0, 1], [1, 0]] : List (List ℝ)).length 1
        (fun _ _ => ([1, 2], [(1 : ℝ), 1]))).length
      = ([[(1 : ℝ), 0], [0, 1], [1, 0]] : List (List ℝ)).length
        * kOf ([[(1 : ℝ), 0], [0, 1], [1, 0]] : List (List ℝ)).length 1 := by
  have hB : (1 : Nat) ≤ 1 := le_refl 1
  have hNB : 1 < ([[(1 : ℝ), 0], [0, 1], [1, 0]] : List (List ℝ)).length := by
    simp
  have hl : ([0, -1, 0] : List ℤ)
      = quantLabels ([[(1 : ℝ), 0], [0, 1], [1, 0]] : List (List ℝ)).length 1
          (fun _ _ => ([1, 2], [(1 : ℝ), 1])) (fun _ _ => [0, -1, 0]) := rfl
  have hnns : ∀ i, i < ([[(1 : ℝ), 0], [0, 1], [1, 0]] : List (List ℝ)).length →
      (((fun _ _ => (([1, 2], [(1 : ℝ), 1]) : List Nat × List ℝ)) i
         (kOf ([[(1 : ℝ), 0], [0, 1], [1, 0]] : List (List ℝ)).length 1)).2).length
        = kOf ([[(1 : ℝ), 0], [0, 1], [1, 0]] : List (List ℝ)).length 1 := by
    intro i _
    rfl
  have hlen : ([0, -1, 0] : List ℤ).length
      = ([[(1 : ℝ), 0], [0, 1], [1, 0]] : List (List ℝ)).length := rfl
  have hrange : ∀ l ∈ ([0, -1, 0] : List ℤ), 0 ≤ l → l.toNat < nClustersOf [0, -1, 0] := by
    decide
  exact ⟨⟨hB, hNB, hl, hnns, hlen, hrange⟩,
    (quantize_word_vectors_spec [[(1 : ℝ), 0], [0, 1], [1, 0]] 1
      (fun _ _ => ([1, 2], [(1 : ℝ), 1])) (fun _ _ => [0, -1, 0]) [0, -1, 0]
      hl hB hNB hnns hlen hrange).1⟩

/-! ## Claim C2 -/

theorem argminAux_lt (l : List ℝ) :
    ∀ (i best : Nat) (bv : ℝ), best < i → argminAux l i best bv < i + l.length := by
  induction l with
  | nil => intro i best bv h; simpa using h
  | cons x rest ih =>
      intro i best bv h
      rw [argminAux]
      by_cases hx : x < bv
      · rw [if_pos hx]
        have := ih (i + 1) i x (by omega)
        simpa [Nat.add_comm, Nat.add_assoc, Nat.add_left_comm] using this
      · rw [if_neg hx]
        have := ih (i + 1) best bv (by omega)
        simpa [Nat.add_comm, Nat.add_assoc, Nat.add_left_comm] using this

theorem argminIdx_lt_length (l : List ℝ) (h : l ≠ []) : argminIdx l < l.length := by
  match l with
  | x :: rest =>
      rw [argminIdx]
      have := argminAux_lt rest 1 0 x (by omega)
      simp only [List.length_cons]
      omega

/-- C2 counterexample: with no special symbols, decoded vector `[0.8, 0, 0.6]`
and a 1-dimensional embedding model, the best word (distance `0.2`) is strictly
closer than the end indicator (`0.4`) and the unknown indicator (`1`), yet
because the end indicator beats the unknown indicator the source leaves `res`
untouched: the gensim similarity list `[("w", 0.9)]` is returned as is — its
second components are similarity scores, not the cosine distance `0.2` the
claim requires. -/
theorem find_best_words_counterexample :
    cosineDist [(4 : ℝ) / 5, 0, 3 / 5] (normalizeIfPos (padVec 3 [(1 : ℝ)])) = 1 / 5 ∧
    cosineDist [(4 : ℝ) / 5, 0, 3 / 5] (onehot 3 2) = 2 / 5 ∧
    cosineDist [(4 : ℝ) / 5, 0, 3 / 5] (onehot 3 1) = 1 ∧
    find_best_words [(4 : ℝ) / 5, 0, 3 / 5] (fun _ => [(1 : ℝ)]) 1 [] [("w", 9 / 10)]
      = some [("w", 9 / 10)] ∧
    ((9 : ℝ) / 10) ≠ 1 / 5 := by
  refine ⟨?_, ?_, ?_, ?_, by norm_num⟩
  · norm_num [cosineDist, dot, l2norm, normalizeIfPos, padVec, onehot, List.replicate_succ]
  · norm_num [cosineDist, dot, l2norm, onehot, List.replicate_succ]
  · norm_num [cosineDist, dot, l2norm, onehot, List.replicate_succ]
  · norm_num [find_best_words, cosineDist, dot, l2norm, normalizeIfPos, padVec, onehot,
      List.replicate_succ]

/-- C2 (amended): under the claim's premise — the best real word strictly closer
by cosine distance to the decoded vector than the end indicator, the unknown
indicator and every special-symbol indicator — the sorted list of up to `n`
`(word, cosine distance)` pairs (ascending distance, ties by word) is returned
only when no special symbols are configured and the unknown indicator is at
least as close as the end indicator; in every other case (`end` closer than
`unknown`, or special symbols configured) the raw similarity-ranked candidate
list of the embedding lookup is returned unchanged. -/
theorem find_best_words_spec (wv : List ℝ) (emb : String → List ℝ) (vs n : Nat)
    (specials : List String) (res₀ : List (String × ℝ))
    (hne : res₀ ≠ []) (hn : res₀.length ≤ n)
    (hbe : cosineDist wv (normalizeIfPos (padVec (vs + 2 + specials.length)
        (emb (res₀.headD ("", 0)).1)))
      < cosineDist wv (onehot (vs + 2 + specials.length) (vs + 2 + specials.length - 1)))
    (hbu : cosineDist wv (normalizeIfPos (padVec (vs + 2 + specials.length)
        (emb (res₀.headD ("", 0)).1)))
      < cosineDist wv (onehot (vs + 2 + specials.length) (vs + 2 + specials.length - 2)))
    (hbs : ∀ i, i < specials.length →
      cosineDist wv (normalizeIfPos (padVec (vs + 2 + specials.length)
        (emb (res₀.headD ("", 0)).1)))
      < cosineDist wv (onehot (vs + 2 + specials.length) (vs + i))) :
    ((cosineDist wv (onehot (vs + 2 + specials.length) (vs + 2 + specials.length - 1))
        < cosineDist wv (onehot (vs + 2 + specials.length) (vs + 2 + specials.length - 2)) ∨
      specials ≠ []) →
      find_best_words wv emb vs specials res₀ = some res₀) ∧
    (specials = [] →
      cosineDist wv (onehot (vs + 2 + specials.length) (vs + 2 + specials.length - 2))
        ≤ cosineDist wv (onehot (vs + 2 + specials.length) (vs + 2 + specials.length - 1)) →
      find_best_words wv emb vs specials res₀
        = some (List.insertionSort pairLe (res₀.map fun p =>
            (p.1, cosineDist wv (normalizeIfPos (padVec (vs + 2 + specials.length) (emb p.1)))))) ∧
      (List.insertionSort pairLe (res₀.map fun p =>
        (p.1, cosineDist wv (normalizeIfPos (padVec (vs + 2 + specials.length) (emb p.1)))))).length
        ≤ n ∧
      List.Sorted pairLe (List.insertionSort pairLe (res₀.map fun p =>
        (p.1, cosineDist wv (normalizeIfPos (padVec (vs + 2 + specials.length) (emb p.1)))))) ∧
      (List.insertionSort pairLe (res₀.map fun p =>
        (p.1, cosineDist wv (normalizeIfPos (padVec (vs + 2 + specials.length) (emb p.1)))))).Perm
        (res₀.map fun p =>
          (p.1, cosineDist wv (normalizeIfPos (padVec (vs + 2 + specials.length) (emb p.1)))))) := by
  constructor
  · intro hor
    unfold find_best_words
    by_cases hd : cosineDist wv (onehot (vs + 2 + specials.length) (vs + 2 + specials.length - 1))
        < cosineDist wv (onehot (vs + 2 + specials.length) (vs + 2 + specials.length - 2))
    · rw [if_pos hd, if_neg (lt_asymm hbe)]
    · rcases hor with hor | hor
      · exact absurd hor hd
      · have hsl : 0 < specials.length := List.length_pos.mpr hor
        have hsi : argminIdx ((List.range specials.length).map
            (fun i => cosineDist wv (onehot (vs + 2 + specials.length) (vs + i))))
            < specials.length := by
          have hmne : ((List.range specials.length).map
              (fun i => cosineDist wv (onehot (vs + 2 + specials.length) (vs + i)))) ≠ [] := by
            simp only [ne_eq, List.map_eq_nil_iff, List.range_eq_nil]
            omega
          have := argminIdx_lt_length _ hmne
          simpa using this
        rw [if_neg hd, if_neg (lt_asymm hbu), if_pos hsl, if_neg (lt_asymm (hbs _ hsi))]
  · intro hsp hue
    subst hsp
    unfold find_best_words
    rw [if_neg (not_lt.mpr hue), if_neg (lt_asymm hbu)]
    simp only [List.length_nil, Nat.lt_irrefl, if_false]
    refine ⟨trivial, ?_, List.sorted_insertionSort pairLe _, List.perm_insertionSort pairLe _⟩
    rw [List.length_insertionSort, List.length_map]
    exact hn

/-- Witness for C2's amended statement: unit decoded vector `[1, 0, 0]`, one
real-word candidate at distance 0, end and unknown indicators both at distance
1. -/
theorem find_best_words_spec_witness :
    (([(("b" : String), (1 : ℝ))] ≠ ([] : List (String × ℝ))) ∧
     ([(("b" : String), (1 : ℝ))] : List (String × ℝ)).length ≤ 1 ∧
     cosineDist [(1 : ℝ), 0, 0] (normalizeIfPos (padVec (1 + 2 + ([] : List String).length)
        (([(1 : ℝ)] : List ℝ))))
        < cosineDist [(1 : ℝ), 0, 0] (onehot (1 + 2 + ([] : List String).length)
            (1 + 2 + ([] : List String).length - 1)) ∧
     cosineDist [(1 : ℝ), 0, 0] (onehot (1 + 2 + ([] : List String).length)
        (1 + 2 + ([] : List String).length - 2))
        ≤ cosineDist [(1 : ℝ), 0, 0] (onehot (1 + 2 + ([] : List String).length)
            (1 + 2 + ([] : List String).length - 1))) ∧
    find_best_words [(1 : ℝ), 0, 0] (fun _ => [(1 : ℝ)]) 1 [] [("b", 1)]
      = some (List.insertionSort pairLe (([(("b" : String), (1 : ℝ))]).map fun p =>
          (p.1, cosineDist [(1 : ℝ), 0, 0]
            (normalizeIfPos (padVec (1 + 2 + ([] : List String).length)
              ((fun _ : String => [(1 : ℝ)]) p.1)))))) := by
  have hne : [(("b" : String), (1 : ℝ))] ≠ ([] : List (String × ℝ)) := by
    exact List.cons_ne_nil _ _
  have hn : ([(("b" : String), (1 : ℝ))] : List (String × ℝ)).length ≤ 1 := by norm_num
  have hbe : cosineDist [(1 : ℝ), 0, 0] (normalizeIfPos (padVec (1 + 2 + ([] : List String).length)
      (([(1 : ℝ)] : List ℝ))))
      < cosineDist [(1 : ℝ), 0, 0] (onehot (1 + 2 + ([] : List String).length)
          (1 + 2 + ([] : List String).length - 1)) := by
    norm_num [cosineDist, dot, l2norm, normalizeIfPos, padVec, onehot, List.replicate_succ]
  have hbu : cosineDist [(1 : ℝ), 0, 0] (normalizeIfPos (padVec (1 + 2 + ([] : List String).length)
      (([(1 : ℝ)] : List ℝ))))
      < cosineDist [(1 : ℝ), 0, 0] (onehot (1 + 2 + ([] : List String).length)
          (1 + 2 + ([] : List String).length - 2)) := by
    norm_num [cosineDist, dot, l2norm, normalizeIfPos, padVec, onehot, List.replicate_succ]
  have hue : cosineDist [(1 : ℝ), 0, 0] (onehot (1 + 2 + ([] : List String).length)
      (1 + 2 + ([] : List String).length - 2))
      ≤ cosineDist [(1 : ℝ), 0, 0] (onehot (1 + 2 + ([] : List String).length)
          (1 + 2 + ([] : List String).length - 1)) := by
    norm_num [cosineDist, dot, l2norm, onehot, List.replicate_succ]
  have hbs : ∀ i, i < ([] : List String).length →
      cosineDist [(1 : ℝ), 0, 0] (normalizeIfPos (padVec (1 + 2 + ([] : List String).length)
        (([(1 : ℝ)] : List ℝ))))
      < cosineDist [(1 : ℝ), 0, 0] (onehot (1 + 2 + ([] : List String).length) (1 + i)) := by
    intro i hi
    simp at hi
  refine ⟨⟨hne, hn, hbe, hue⟩, ?_⟩
  exact ((find_best_words_spec [(1 : ℝ), 0, 0] (fun _ => [(1 : ℝ)]) 1 1 [] [("b", 1)]
    hne hn hbe hbu hbs).2 rfl hue).1

/-! ## Claim C3 -/

/-- `getD` through a `map`, inside the list. -/
theorem getD_map_lt {α β : Type} (f : α → β) (x : List α) (i : Nat) (h : i < x.length)
    (d : α) (e : β) : (x.map f).getD i e = f (x.getD i d) := by
  rw [List.getD_eq_getElem?_getD, List.getD_eq_getElem?_getD, List.getElem?_map,
    List.getElem?_eq_getElem h]
  rfl

/-- The end-detection scan finds the first row whose arg-max is the last column
(applying the floor `max t 1`), or falls through to `T`. -/
theorem endScan_spec (W T : Nat) :
    ∀ (rows : List (List ℝ)) (t0 : Nat),
      (endScan W T rows t0 = T ∧
        ∀ j, j < rows.length → argmaxIdx (rows.getD j []) ≠ W - 1) ∨
      (∃ j, j < rows.length ∧ argmaxIdx (rows.getD j []) = W - 1 ∧
        (∀ u, u < j → argmaxIdx (rows.getD u []) ≠ W - 1) ∧
        endScan W T rows t0 = max (t0 + j) 1) := by
  intro rows
  induction rows with
  | nil =>
      intro t0
      left
      exact ⟨rfl, by intro j hj; simp at hj⟩
  | cons r rest ih =>
      intro t0
      by_cases hr : argmaxIdx r = W - 1
      · right
        refine ⟨0, by simp, by simpa using hr, by intro u hu; omega, ?_⟩
        show endScan W T (r :: rest) t0 = max (t0 + 0) 1
        rw [endScan, if_pos hr, Nat.add_zero]
      · rcases ih (t0 + 1) with ⟨h1, h2⟩ | ⟨j, hj, hmax, hprev, heq⟩
        · left
          refine ⟨?_, ?_⟩
          · rw [endScan, if_neg hr]
            exact h1
          · intro j hj
            cases j with
            | zero => simpa using hr
            | succ j =>
                have := h2 j (by simpa using hj)
                simpa using this
        · right
          refine ⟨j + 1, by simpa using hj, by simpa using hmax, ?_, ?_⟩
          · intro u hu
            cases u with
            | zero => simpa using hr
            | succ u =>
                have := hprev u (by omega)
                simpa using this
          · rw [endScan, if_neg hr, heq]
            refine congrArg (max · 1) (by omega)

/-- C3: on a rectangular `(B, T, W)` input with `W ≥ 1`,
`postprocess_reconstructed_word_vectors` keeps the batch size, emits `T` rows of
width `W - 1` per sample, and — independently per sample, with `e` the first
time step whose (first-occurrence) arg-max is the last column, floored at 1 and
defaulting to `T` — rows before `e` are the input rows with the last column
dropped, each divided by its Euclidean norm, and rows from `e` on are zero. -/
theorem postprocess_reconstructed_spec (x : List (List (List ℝ))) (T W : Nat)
    (hT : T = (x.headD []).length) (hW : W = ((x.headD []).headD []).length)
    (hrT : ∀ i, i < x.length → (x.getD i []).length = T)
    (hrW : ∀ i, i < x.length → ∀ t, t < T → ((x.getD i []).getD t []).length = W)
    (hW1 : 1 ≤ W) :
    (postprocess3 x).length = x.length ∧
    (∀ i, i < x.length → ((postprocess3 x).getD i []).length = T) ∧
    (∀ i, i < x.length → ∀ t, t < T →
      (((postprocess3 x).getD i []).getD t []).length = W - 1) ∧
    (∀ i, i < x.length →
      (endIdxOf W T (x.getD i []) = T ∧
        ∀ t, t < T → argmaxIdx ((x.getD i []).getD t []) ≠ W - 1) ∨
      (∃ t, t < T ∧ argmaxIdx ((x.getD i []).getD t []) = W - 1 ∧
        (∀ u, u < t → argmaxIdx ((x.getD i []).getD u []) ≠ W - 1) ∧
        endIdxOf W T (x.getD i []) = max t 1)) ∧
    (∀ i, i < x.length → ∀ t, t < T →
      (t < endIdxOf W T (x.getD i []) →
        ((postprocess3 x).getD i []).getD t []
          = (((x.getD i []).getD t []).take (W - 1)).map
              (· / l2norm (((x.getD i []).getD t []).take (W - 1)))) ∧
      (endIdxOf W T (x.getD i []) ≤ t →
        ((postprocess3 x).getD i []).getD t [] = List.replicate (W - 1) 0)) := by
  have hpp : postprocess3 x = x.map (postprocessSample T W) := by
    unfold postprocess3
    rw [← hT, ← hW]
  have hgets : ∀ i, i < x.length →
      (postprocess3 x).getD i [] = postprocessSample T W (x.getD i []) := by
    intro i hi
    rw [hpp]
    exact getD_map_lt (postprocessSample T W) x i hi [] []
  refine ⟨by rw [hpp]; exact List.length_map x _, ?_, ?_, ?_, ?_⟩
  · intro i hi
    rw [hgets i hi]
    unfold postprocessSample
    simp
  · intro i hi t ht
    rw [hgets i hi]
    unfold postprocessSample
    rw [getD_range_map _ _ ht]
    by_cases hc : t < endIdxOf W T (x.getD i [])
    · rw [if_pos hc, List.length_map, List.length_take, hrW i hi t ht]
      omega
    · rw [if_neg hc, List.length_replicate]
  · intro i hi
    rcases endScan_spec W T (x.getD i []) 0 with ⟨h1, h2⟩ | ⟨j, hj, hmax, hprev, heq⟩
    · left
      exact ⟨h1, fun t ht => h2 t (by rw [hrT i hi]; exact ht)⟩
    · right
      refine ⟨j, ?_, hmax, hprev, ?_⟩
      · rw [hrT i hi] at hj
        exact hj
      · rw [show endIdxOf W T (x.getD i []) = endScan W T (x.getD i []) 0 from rfl, heq,
          Nat.zero_add]
  · intro i hi t ht
    rw [hgets i hi]
    unfold postprocessSample
    rw [getD_range_map _ _ ht]
    constructor
    · intro hc
      rw [if_pos hc]
    · intro hc
      rw [if_neg (by omega)]

/-- Witness for C3 at the concrete input `[[[1, 0], [0, 1]]]` (one sample, two
time steps, width 2): the second row triggers the end column. -/
theorem postprocess_reconstructed_spec_witness :
    ((2 = (([[[(1 : ℝ), 0], [0, 1]]].headD []).length) ∧
      2 = ((([[[(1 : ℝ), 0], [0, 1]]].headD []).headD []).length) ∧
      (∀ i, i < [[[(1 : ℝ), 0], [0, 1]]].length →
        ([[[(1 : ℝ), 0], [0, 1]]].getD i []).length = 2) ∧
      (∀ i, i < [[[(1 : ℝ), 0], [0, 1]]].length → ∀ t, t < 2 →
        (([[[(1 : ℝ), 0], [0, 1]]].getD i []).getD t []).length = 2) ∧
      1 ≤ 2)) ∧
    (postprocess3 [[[(1 : ℝ), 0], [0, 1]]]).length = [[[(1 : ℝ), 0], [0, 1]]].length := by
  have h1 : (2 : Nat) = (([[[(1 : ℝ), 0], [0, 1]]].headD []).length) := by simp
  have h2 : (2 : Nat) = ((([[[(1 : ℝ), 0], [0, 1]]].headD []).headD []).length) := by simp
  have h3 : ∀ i, i < [[[(1 : ℝ), 0], [0, 1]]].length →
      ([[[(1 : ℝ), 0], [0, 1]]].getD i []).length = 2 := by
    intro i hi
    have hi1 : i < 1 := by simpa using hi
    interval_cases i
    · simp
  have h4 : ∀ i, i < [[[(1 : ℝ), 0], [0, 1]]].length → ∀ t, t < 2 →
      (([[[(1 : ℝ), 0], [0, 1]]].getD i []).getD t []).length = 2 := by
    intro i hi t htl
    have hi1 : i < 1 := by simpa using hi
    interval_cases i
    · interval_cases t
      · simp
      · simp
  exact ⟨⟨h1, h2, h3, h4, by omega⟩,
    (postprocess_reconstructed_spec [[[(1 : ℝ), 0], [0, 1]]] 2 2 h1 h2 h3 h4 (by omega)).1⟩

/-- C1 counterexample: with two alternatives at distinct positions and
`ntop = 3`, the second non-greedy text `"b d"` differs from the greedy text
`"a c"` at *two* word positions, because the substitutions accumulate in the
mutated running variant. -/
theorem find_best_texts_counterexample :
    (∀ l ∈ [[("a", (0 : ℚ)), ("b", 1)], [("c", 0), ("d", 2)]], l ≠ []) ∧
    find_best_texts [[("a", (0 : ℚ)), ("b", 1)], [("c", 0), ("d", 2)]] 3
      = ["a c", "b c", "b d"] ∧
    variantWords [[("a", (0 : ℚ)), ("b", 1)], [("c", 0), ("d", 2)]] 0 = ["a", "c"] ∧
    variantWords [[("a", (0 : ℚ)), ("b", 1)], [("c", 0), ("d", 2)]] 2 = ["b", "d"] ∧
    wordDiffs ["b", "d"] ["a", "c"] = 2 := by
  decide

end ConvVae
